import Mathlib

/-!
# CHIP-8 virtual machine

A shallow embedding of `vm.go` and the properties of its instruction semantics.

Conventions of the embedding:

* Go's fixed-size arrays (`[4096]byte`, `[64][32]bool`, `[16]uint16`, ...) are total
  functions on `Nat`; every access whose index is not provably in range is guarded by the
  bounds check that Go performs, and a failed check (a Go run-time panic) is `none`.
* `byte` and `uint16` values are natural numbers; every operation that can wrap carries an
  explicit `% 256` or `% 65536`.  `VM.WF` states that each cell holds a value of its Go type.
* A `for v := lo; v < hi; v++` loop is a recursive function whose first numeric argument is
  the number of iterations still to run (`hi - v`) and whose second is the loop variable.
* `rand.Intn(256)` is the extra argument `rnd` of `execute`.
-/

namespace Chip8

/-! ## Constants -/

/-- Register name `VF` (the sixteenth register, index 15). -/
abbrev VF : Nat := 15

abbrev FONTSET_START_ADDRESS : Nat := 0x50
abbrev DISPLAY_WIDTH : Nat := 64
abbrev DISPLAY_HEIGHT : Nat := 32

/-- The built-in glyphs, five bytes for each of the digits 0 to F. -/
def FONTSET : List Nat :=
  [0xF0, 0x90, 0x90, 0x90, 0xF0,
   0x20, 0x60, 0x20, 0x20, 0x70,
   0xF0, 0x10, 0xF0, 0x80, 0xF0,
   0xF0, 0x10, 0xF0, 0x10, 0xF0,
   0x90, 0x90, 0xF0, 0x10, 0x10,
   0xF0, 0x80, 0xF0, 0x10, 0xF0,
   0xF0, 0x80, 0xF0, 0x90, 0xF0,
   0xF0, 0x10, 0x20, 0x40, 0x40,
   0xF0, 0x90, 0xF0, 0x90, 0xF0,
   0xF0, 0x90, 0xF0, 0x10, 0xF0,
   0xF0, 0x90, 0xF0, 0x90, 0x90,
   0xE0, 0x90, 0xE0, 0x90, 0xE0,
   0xF0, 0x80, 0x80, 0x80, 0xF0,
   0xE0, 0x90, 0x90, 0x90, 0xE0,
   0xF0, 0x80, 0xF0, 0x80, 0xF0,
   0xF0, 0x80, 0xF0, 0x80, 0x80]

/-! ## State -/

/-- The machine state, field for field the Go struct `VM`. -/
structure VM where
  memory : Nat → Nat
  display : Nat → Nat → Bool
  displayUpdated : Bool
  pc : Nat
  i : Nat
  stack : Nat → Nat
  sp : Nat
  delay : Nat
  sound : Nat
  registers : Nat → Nat
  keys : Nat → Bool

/-- Every cell of the state holds a value of its Go type (`byte` or `uint16`). -/
def VM.WF (vm : VM) : Prop :=
  (∀ a, a < 4096 → vm.memory a < 256) ∧ vm.pc < 65536 ∧ vm.i < 65536 ∧
  (∀ k, k < 16 → vm.stack k < 65536) ∧ vm.sp < 256 ∧ vm.delay < 256 ∧ vm.sound < 256 ∧
  (∀ k, k < 16 → vm.registers k < 256)

/-- Array assignment `f[k] = v`. -/
def setAt {α : Type} (f : Nat → α) (k : Nat) (v : α) : Nat → α :=
  fun j => if j = k then v else f j

/-- Assignment `d[cx][cy] = v` on the two-dimensional display array. -/
def setPixel (d : Nat → Nat → Bool) (cx cy : Nat) (v : Bool) : Nat → Nat → Bool :=
  fun px py => if px = cx ∧ py = cy then v else d px py

/-- The zero value of the struct, as returned by Go's `new(VM)`. -/
def zeroVM : VM where
  memory := fun _ => 0
  display := fun _ _ => false
  displayUpdated := false
  pc := 0
  i := 0
  stack := fun _ => 0
  sp := 0
  delay := 0
  sound := 0
  registers := fun _ => 0
  keys := fun _ => false

/-! ## Construction and program loading -/

/-- The loop of `NewVM` copying `FONTSET` into memory; `FONTSET_START_ADDRESS + i` is always
a valid address for `i < 80`. -/
def loadFontset : Nat → Nat → VM → VM
  | 0, _, vm => vm
  | k + 1, i, vm =>
    loadFontset k (i + 1)
      { vm with memory := setAt vm.memory (FONTSET_START_ADDRESS + i) (FONTSET.getD i 0) }

/-- Constructor `NewVM`: the zero state with `pc = 0x200` and the font loaded (seeding the random
generator has no effect on the state). -/
def NewVM : VM :=
  loadFontset FONTSET.length 0 { zeroVM with pc := 0x200 }

/-- The loop of `LoadProgram`; the write `vm.memory[i+0x200]` panics when out of range. -/
def loadLoop (ram : List Nat) : Nat → Nat → VM → Option VM
  | 0, _, vm => some vm
  | k + 1, i, vm =>
    if i + 0x200 < 4096 then
      loadLoop ram k (i + 1) { vm with memory := setAt vm.memory (i + 0x200) (ram.getD i 0) }
    else none

/-- Method `LoadProgram`: copy `ram` into memory from address `0x200` on. -/
def LoadProgram (vm : VM) (ram : List Nat) : Option VM :=
  loadLoop ram ram.length 0 vm

/-! ## Fetch -/

/-- Method `fetch`: read the big-endian word at `pc` and advance `pc` by two. -/
def fetch (vm : VM) : Option (Nat × VM) :=
  if vm.pc < 4096 then
    let a := (vm.pc + 1) % 65536
    if a < 4096 then
      some (((vm.memory vm.pc <<< 8) % 65536) ||| vm.memory a,
            { vm with pc := (vm.pc + 2) % 65536 })
    else none
  else none

/-! ## Execute -/

/-- The statement `vm.pc += 2`. -/
def skip (vm : VM) : VM := { vm with pc := (vm.pc + 2) % 65536 }

/-- The nested loops of `00E0`, setting `display[i][j] = false` for all `i < 64`, `j < 32`. -/
def clearDisplay (d : Nat → Nat → Bool) : Nat → Nat → Bool :=
  (List.range DISPLAY_WIDTH).foldl
    (fun d1 i => (List.range DISPLAY_HEIGHT).foldl (fun d2 j => setPixel d2 i j false) d1) d

/-- Family `0x0000`: the inner `switch instruction`. -/
def exec0 (vm : VM) (instruction : Nat) : Option VM :=
  if instruction = 0x00E0 then
    some { vm with display := clearDisplay vm.display, displayUpdated := true }
  else if instruction = 0x00EE then
    let sp1 := (vm.sp + 256 - 1) % 256
    if sp1 < 16 then some { vm with sp := sp1, pc := vm.stack sp1 } else none
  else some vm

/-- Family `0x8000`: the inner `switch instruction & 0x000F`.  Cases `0x0005` and `0x0006`
fall through to the bodies of `0x0007` and `0x000E`; the last case compares the low nibble
with `0x9000`. -/
def exec8 (vm : VM) (instruction x y : Nat) : VM :=
  let op := instruction &&& 0x000F
  if op = 0x0000 then
    { vm with registers := setAt vm.registers x (vm.registers y) }
  else if op = 0x0001 then
    { vm with registers := setAt vm.registers x (vm.registers x ||| vm.registers y) }
  else if op = 0x0002 then
    { vm with registers := setAt vm.registers x (vm.registers x &&& vm.registers y) }
  else if op = 0x0003 then
    { vm with registers := setAt vm.registers x (vm.registers x ^^^ vm.registers y) }
  else if op = 0x0004 then
    let r1 := setAt vm.registers x ((vm.registers x + vm.registers y) % 256)
    if r1 y > (0xFF + 256 - r1 x) % 256 then
      { vm with registers := setAt r1 VF 1 }
    else
      { vm with registers := setAt r1 VF 0 }
  else if op = 0x0005 ∨ op = 0x0007 then
    let r1 :=
      if vm.registers y > vm.registers x then setAt vm.registers VF 0
      else setAt vm.registers VF 1
    { vm with registers := setAt r1 x ((r1 x + 256 - r1 y) % 256) }
  else if op = 0x0006 ∨ op = 0x000E then
    let r1 := setAt vm.registers VF (vm.registers x &&& 0x1)
    { vm with registers := setAt r1 x (r1 x >>> 1) }
  else if op = 0x9000 then
    if vm.registers x ≠ vm.registers y then skip vm else vm
  else vm

/-- Body of the column loop of `Dxyn` after its bounds test. -/
def drawPixel (vm : VM) (spriteRow xpos ypos row col : Nat) : VM :=
  let spritePixel := spriteRow &&& (0x80 >>> col)
  let displayPixel := vm.display (xpos + col) (ypos + row)
  if spritePixel = 1 then
    let vm1 := if displayPixel then { vm with registers := setAt vm.registers VF 1 } else vm
    { vm1 with display := setPixel vm1.display (xpos + col) (ypos + row) (!displayPixel) }
  else vm

/-- The loop `for col := 0; col < 8; col++` of `Dxyn`, leaving at the first column outside
the display. -/
def drawCols (spriteRow xpos ypos row : Nat) : Nat → Nat → VM → VM
  | 0, _, vm => vm
  | k + 1, col, vm =>
    if xpos + col ≥ DISPLAY_WIDTH then vm
    else drawCols spriteRow xpos ypos row k (col + 1) (drawPixel vm spriteRow xpos ypos row col)

/-- The loop `for row := 0; row < n; row++` of `Dxyn`, leaving at the first row outside the
display; the read `vm.memory[vm.i+row]` panics when out of range. -/
def drawRows (xpos ypos : Nat) : Nat → Nat → VM → Option VM
  | 0, _, vm => some vm
  | k + 1, row, vm =>
    if ypos + row ≥ DISPLAY_HEIGHT then some vm
    else
      let a := (vm.i + row) % 65536
      if a < 4096 then
        drawRows xpos ypos k (row + 1) (drawCols (vm.memory a) xpos ypos row 8 0 vm)
      else none

/-- Family `0xD000`: draw sprite. -/
def execD (vm : VM) (x y n : Nat) : Option VM :=
  let xpos := vm.registers x % DISPLAY_WIDTH
  let ypos := vm.registers y % DISPLAY_HEIGHT
  let vm1 := { vm with registers := setAt vm.registers VF 0 }
  (drawRows xpos ypos n 0 vm1).map fun vm2 => { vm2 with displayUpdated := true }

/-- Family `0xE000`: the inner `switch instruction & 0x00FF`; `vm.keys[vm.registers[x]]`
panics when the register holds 16 or more. -/
def execE (vm : VM) (instruction x : Nat) : Option VM :=
  let op := instruction &&& 0x00FF
  if op = 0x009E then
    if vm.registers x < 16 then
      some (if vm.keys (vm.registers x) then skip vm else vm)
    else none
  else if op = 0x00A1 then
    if vm.registers x < 16 then
      some (if !vm.keys (vm.registers x) then skip vm else vm)
    else none
  else some vm

/-- The key scan of `Fx0A`: the state after the loop and the flag `keyPressed`. -/
def keyScan (x : Nat) : Nat → Nat → VM → VM × Bool
  | 0, _, vm => (vm, false)
  | k + 1, i, vm =>
    if vm.keys i then ({ vm with registers := setAt vm.registers x (i % 256) }, true)
    else keyScan x k (i + 1) vm

/-- The loop of `Fx55`, `for i := 0; i <= int(x); i++`. -/
def storeRegs : Nat → Nat → VM → Option VM
  | 0, _, vm => some vm
  | k + 1, i, vm =>
    let a := (vm.i + i) % 65536
    if a < 4096 then
      storeRegs k (i + 1) { vm with memory := setAt vm.memory a (vm.registers i) }
    else none

/-- The loop of `Fx65`, `for i := 0; i <= int(x); i++`. -/
def loadRegs : Nat → Nat → VM → Option VM
  | 0, _, vm => some vm
  | k + 1, i, vm =>
    let a := (vm.i + i) % 65536
    if a < 4096 then
      loadRegs k (i + 1) { vm with registers := setAt vm.registers i (vm.memory a) }
    else none

/-- Family `0xF000`: the inner `switch instruction & 0x00FF`. -/
def execF (vm : VM) (instruction x : Nat) : Option VM :=
  let op := instruction &&& 0x00FF
  if op = 0x0007 then
    some { vm with registers := setAt vm.registers x vm.delay }
  else if op = 0x000A then
    let r := keyScan x 16 0 vm
    if !r.2 then some { r.1 with pc := (r.1.pc + 65536 - 2) % 65536 } else some r.1
  else if op = 0x0015 then
    some { vm with delay := vm.registers x }
  else if op = 0x0018 then
    some { vm with sound := vm.registers x }
  else if op = 0x001E then
    some { vm with i := (vm.i + vm.registers x) % 65536 }
  else if op = 0x0029 then
    some { vm with i := (FONTSET_START_ADDRESS + vm.registers x * 5) % 65536 }
  else if op = 0x0033 then
    if vm.i < 4096 then
      let m1 := setAt vm.memory vm.i (vm.registers x / 100)
      let a1 := (vm.i + 1) % 65536
      if a1 < 4096 then
        let m2 := setAt m1 a1 ((vm.registers x / 10) % 10)
        let a2 := (vm.i + 2) % 65536
        if a2 < 4096 then
          some { vm with memory := setAt m2 a2 ((vm.registers x % 100) % 10) }
        else none
      else none
    else none
  else if op = 0x0055 then
    storeRegs (x + 1) 0 vm
  else if op = 0x0065 then
    loadRegs (x + 1) 0 vm
  else some vm

/-- Method `execute`: decode the instruction word and dispatch on its top nibble. -/
def execute (vm : VM) (instruction : Nat) (rnd : Nat) : Option VM :=
  let code := instruction &&& 0xF000
  let x := (instruction &&& 0x0F00) >>> 8
  let y := (instruction &&& 0x00F0) >>> 4
  let n := instruction &&& 0x000F
  let nn := instruction &&& 0x00FF
  let nnn := instruction &&& 0x0FFF
  if code = 0x0000 then exec0 vm instruction
  else if code = 0x1000 then some { vm with pc := nnn }
  else if code = 0x2000 then
    if vm.sp < 16 then
      some { vm with stack := setAt vm.stack vm.sp vm.pc, sp := (vm.sp + 1) % 256, pc := nnn }
    else none
  else if code = 0x3000 then
    some (if vm.registers x = nn % 256 then skip vm else vm)
  else if code = 0x4000 then
    some (if vm.registers x ≠ nn % 256 then skip vm else vm)
  else if code = 0x5000 then
    some (if vm.registers x = vm.registers y then skip vm else vm)
  else if code = 0x6000 then
    some { vm with registers := setAt vm.registers x (nn % 256) }
  else if code = 0x7000 then
    some { vm with registers := setAt vm.registers x ((vm.registers x + nn % 256) % 256) }
  else if code = 0x8000 then some (exec8 vm instruction x y)
  else if code = 0xA000 then some { vm with i := nnn }
  else if code = 0xB000 then some { vm with pc := (nnn + vm.registers 0) % 65536 }
  else if code = 0xC000 then
    some { vm with registers := setAt vm.registers x ((nn % 256) &&& (rnd % 256)) }
  else if code = 0xD000 then execD vm x y n
  else if code = 0xE000 then execE vm instruction x
  else if code = 0xF000 then execF vm instruction x
  else some vm

/-! ## Cycle driver -/

/-- One iteration of the loop of `Run`: fetch, execute, then reset the dirty flag. -/
def cycle (vm : VM) (rnd : Nat) : Option VM :=
  match fetch vm with
  | none => none
  | some (instruction, vm1) =>
    (execute vm1 instruction rnd).map fun vm2 =>
      if vm2.displayUpdated then { vm2 with displayUpdated := false } else vm2

/-- Several iterations of the loop of `Run`, one for each random value supplied. -/
def cycles : List Nat → VM → Option VM
  | [], vm => some vm
  | rnd :: rest, vm =>
    match cycle vm rnd with
    | none => none
    | some vm1 => cycles rest vm1

/-- The program `main`: build the machine, load the program bytes `ram`, and run as many
iterations of the loop of `Run` as `rnds` has entries. -/
def runMain (ram : List Nat) (rnds : List Nat) : Option VM :=
  match LoadProgram NewVM ram with
  | none => none
  | some vm => cycles rnds vm

/-- The first two statements of the loop body of `Run`: fetch an instruction, then execute
it. -/
def fetchExecute (vm : VM) (rnd : Nat) : Option VM :=
  match fetch vm with
  | none => none
  | some (instruction, vm1) => execute vm1 instruction rnd

/-- The last statement of the loop body of `Run`: reset the dirty flag when it is set. -/
def resetDirty (vm : VM) : VM :=
  if vm.displayUpdated then { vm with displayUpdated := false } else vm

/-- The machine as `main` leaves it before `Run`: `NewVM` with the program bytes `ram` loaded
(the fresh machine itself if loading aborts). -/
def loaded (ram : List Nat) : VM :=
  (LoadProgram NewVM ram).getD NewVM

/-- Modelled from the spec: the rows of the instruction table of section 4.2, as a test on a
16-bit word `w` (top nibble `w / 0x1000`, low nibble `w % 16`, low byte `w % 256`). -/
def inInstructionTable (w : Nat) : Bool :=
  decide (w = 0x00E0 ∨ w = 0x00EE ∨
    (w / 0x1000 = 1 ∨ w / 0x1000 = 2 ∨ w / 0x1000 = 3 ∨ w / 0x1000 = 4 ∨ w / 0x1000 = 6 ∨
      w / 0x1000 = 7 ∨ w / 0x1000 = 0xA ∨ w / 0x1000 = 0xB ∨ w / 0x1000 = 0xC ∨
      w / 0x1000 = 0xD) ∨
    (w / 0x1000 = 5 ∧ w % 16 = 0) ∨
    (w / 0x1000 = 8 ∧ (w % 16 ≤ 7 ∨ w % 16 = 0xE)) ∨
    (w / 0x1000 = 9 ∧ w % 16 = 0) ∨
    (w / 0x1000 = 0xE ∧ (w % 256 = 0x9E ∨ w % 256 = 0xA1)) ∨
    (w / 0x1000 = 0xF ∧ (w % 256 = 0x07 ∨ w % 256 = 0x0A ∨ w % 256 = 0x15 ∨ w % 256 = 0x18 ∨
      w % 256 = 0x1E ∨ w % 256 = 0x29 ∨ w % 256 = 0x33 ∨ w % 256 = 0x55 ∨ w % 256 = 0x65)))

/-- A state for examples: the zero state with the listed keys pressed. -/
def withKeys (vm : VM) (pressed : List Nat) : VM :=
  { vm with keys := fun k => decide (k ∈ pressed) }

/-- Effect on display, `sp` and `pc` of an instruction that neither draws nor transfers
control: the display and `sp` are kept, and `pc` is kept, advanced by two (a skip) or moved
back by two (the key wait). -/
def PlainStep (u t : VM) : Prop :=
  t.display = u.display ∧ t.sp = u.sp ∧
  (t.pc = u.pc ∨ t.pc = (u.pc + 2) % 65536 ∨ t.pc = (u.pc + 65536 - 2) % 65536)

/-- Effect of `execute` on display, dirty flag, `sp` and `pc`, by kind of instruction word. -/
def Effect (u : VM) (w : Nat) (t : VM) : Prop :=
  (PlainStep u t ∧ w &&& 0xF000 ≠ 0x1000 ∧ w &&& 0xF000 ≠ 0x2000) ∨
  (w = 0x00E0 ∧ t.displayUpdated = true ∧ t.sp = u.sp ∧ t.pc = u.pc) ∨
  (w &&& 0xF000 = 0xD000 ∧ t.displayUpdated = true ∧ t.sp = u.sp ∧ t.pc = u.pc) ∨
  (w = 0x00EE ∧ t.display = u.display ∧ t.sp < 16) ∨
  (w &&& 0xF000 = 0x1000 ∧ t.display = u.display ∧ t.sp = u.sp ∧ t.pc = w &&& 0x0FFF) ∨
  (w &&& 0xF000 = 0x2000 ∧ t.display = u.display ∧ u.sp < 16 ∧ t.sp = (u.sp + 1) % 256 ∧
    t.pc = w &&& 0x0FFF) ∨
  (w &&& 0xF000 = 0xB000 ∧ t.display = u.display ∧ t.sp = u.sp)

/-- The test `spritePixel == 1` of the column loop of `Dxyn`, for sprite row byte `spriteRow`
and column `c`. -/
def spriteHit (spriteRow c : Nat) : Bool :=
  decide (spriteRow &&& (0x80 >>> c) = 1)

/-- The pixels toggled by `Dxyn` with origin `(X, Y)` and height `n`, reading the sprite from
`mem` at `I`: those inside the clipped sprite window whose test `spritePixel == 1` succeeds. -/
def drawMask (mem : Nat → Nat) (I X Y n px py : Nat) : Bool :=
  decide (X ≤ px ∧ px < X + 8 ∧ px < DISPLAY_WIDTH ∧ Y ≤ py ∧ py < Y + n ∧ py < DISPLAY_HEIGHT)
    && spriteHit (mem ((I + (py - Y)) % 65536)) (px - X)

/-- What the loops of `Dxyn` leave alone: every field except `display`, and every register
except `VF`. -/
def DrawFrame (vm vm1 : VM) : Prop :=
  vm1.memory = vm.memory ∧ vm1.i = vm.i ∧ vm1.pc = vm.pc ∧ vm1.stack = vm.stack ∧
  vm1.sp = vm.sp ∧ vm1.delay = vm.delay ∧ vm1.sound = vm.sound ∧ vm1.keys = vm.keys ∧
  vm1.displayUpdated = vm.displayUpdated ∧ ∀ k, k ≠ VF → vm1.registers k = vm.registers k

/-- A state for examples: the zero state with the first registers set from a list. -/
def withRegs (vm : VM) (r : List Nat) : VM :=
  { vm with registers := fun k => r.getD k 0 }

/-- A state for examples of `Dxyn`: every memory byte is `0xFF`, `V0 = 56`, `V1 = 31`,
`V2 = 60`, `I = 0` and the display is off except for pixel `(63, 31)`. -/
def drawExample : VM :=
  { zeroVM with
    memory := fun _ => 0xFF
    registers := fun k => [56, 31, 60].getD k 0
    display := fun px py => decide (px = 63 ∧ py = 31) }

instance (vm : VM) : Decidable vm.WF := by
  unfold VM.WF
  exact inferInstance

/-! ## Decoding lemmas -/

theorem and_F000 (w : Nat) : w &&& 0xF000 = (w / 4096 % 16) * 4096 := by
  have h : (0xF000 : Nat) = (2 ^ 4 - 1) <<< 12 := by decide
  have h2 : (w / 4096 % 16) * 4096 = ((w >>> 12) % 2 ^ 4) <<< 12 := by
    rw [Nat.shiftLeft_eq, Nat.shiftRight_eq_div_pow]; norm_num
  rw [h, h2]
  apply Nat.eq_of_testBit_eq
  intro i
  simp only [Nat.testBit_and, Nat.testBit_shiftLeft, Nat.testBit_two_pow_sub_one,
    Nat.testBit_mod_two_pow, Nat.testBit_shiftRight]
  by_cases hi : 12 ≤ i
  · have : 12 + (i - 12) = i := by omega
    simp [hi, this, Bool.and_comm]
  · simp [hi]

theorem and_0F00 (w : Nat) : (w &&& 0x0F00) >>> 8 = w / 256 % 16 := by
  have h : (0x0F00 : Nat) = (2 ^ 4 - 1) <<< 8 := by decide
  have h2 : w / 256 % 16 = ((w >>> 8) % 2 ^ 4) := by
    rw [Nat.shiftRight_eq_div_pow]; norm_num
  rw [h, h2]
  apply Nat.eq_of_testBit_eq
  intro i
  simp only [Nat.testBit_and, Nat.testBit_shiftLeft, Nat.testBit_two_pow_sub_one,
    Nat.testBit_mod_two_pow, Nat.testBit_shiftRight]
  have : 8 + i - 8 = i := by omega
  simp [this, Bool.and_comm]

theorem and_00F0 (w : Nat) : (w &&& 0x00F0) >>> 4 = w / 16 % 16 := by
  have h : (0x00F0 : Nat) = (2 ^ 4 - 1) <<< 4 := by decide
  have h2 : w / 16 % 16 = ((w >>> 4) % 2 ^ 4) := by
    rw [Nat.shiftRight_eq_div_pow]; norm_num
  rw [h, h2]
  apply Nat.eq_of_testBit_eq
  intro i
  simp only [Nat.testBit_and, Nat.testBit_shiftLeft, Nat.testBit_two_pow_sub_one,
    Nat.testBit_mod_two_pow, Nat.testBit_shiftRight]
  have : 4 + i - 4 = i := by omega
  simp [this, Bool.and_comm]

theorem and_000F (w : Nat) : w &&& 0x000F = w % 16 := Nat.and_pow_two_sub_one_eq_mod w 4

theorem and_00FF (w : Nat) : w &&& 0x00FF = w % 256 := Nat.and_pow_two_sub_one_eq_mod w 8

theorem and_0FFF (w : Nat) : w &&& 0x0FFF = w % 4096 := Nat.and_pow_two_sub_one_eq_mod w 12

/-- Fields of an instruction word written as four nibbles `c x y n`. -/
theorem decode_nibbles (c x y n : Nat) (hc : c < 16) (hx : x < 16) (hy : y < 16) (hn : n < 16) :
    (0x1000 * c + 0x100 * x + 0x10 * y + n) &&& 0xF000 = 0x1000 * c ∧
    ((0x1000 * c + 0x100 * x + 0x10 * y + n) &&& 0x0F00) >>> 8 = x ∧
    ((0x1000 * c + 0x100 * x + 0x10 * y + n) &&& 0x00F0) >>> 4 = y ∧
    (0x1000 * c + 0x100 * x + 0x10 * y + n) &&& 0x000F = n := by
  rw [and_F000, and_0F00, and_00F0, and_000F]
  omega

/-- In family `0x8000` with operation nibble `op`, `execute` is `exec8` on the decoded
register indices. -/
theorem execute_8 (vm : VM) (x y op rnd : Nat) (hx : x < 16) (hy : y < 16) (hop : op < 16) :
    execute vm (0x8000 + 0x100 * x + 0x10 * y + op) rnd
      = some (exec8 vm (0x8000 + 0x100 * x + 0x10 * y + op) x y) ∧
    (0x8000 + 0x100 * x + 0x10 * y + op) &&& 0x000F = op := by
  obtain ⟨h1, h2, h3, h4⟩ := decode_nibbles 8 x y op (by omega) hx hy hop
  simp only [Nat.reduceMul] at h1 h2 h3 h4
  refine ⟨?_, h4⟩
  simp [execute, h1, h2, h3]

/-! ## Arithmetic instructions -/

/-- C9. `8xy5` with `x`, `y` both different from `VF`: afterwards `VF = 0` exactly when
`Vy > Vx` held before (and `VF = 1` otherwise), and `Vx` is `(Vx - Vy) mod 256`. -/
theorem C9_sub_borrow_flag (s : VM) (x y rnd : Nat) (hwf : s.WF)
    (hx : x < 16) (hy : y < 16) (hxF : x ≠ VF) (hyF : y ≠ VF) :
    ∃ t, execute s (0x8005 + 0x100 * x + 0x10 * y) rnd = some t ∧
      (t.registers VF = 0 ↔ s.registers y > s.registers x) ∧
      (t.registers VF = 1 ↔ ¬ s.registers y > s.registers x) ∧
      (t.registers x : Int) = ((s.registers x : Int) - (s.registers y : Int)) % 256 := by
  have hw : 0x8005 + 0x100 * x + 0x10 * y = 0x8000 + 0x100 * x + 0x10 * y + 5 := by omega
  obtain ⟨he, hop⟩ := execute_8 s x y 5 rnd hx hy (by omega)
  have hax := hwf.2.2.2.2.2.2.2 x hx
  have hay := hwf.2.2.2.2.2.2.2 y hy
  rw [hw, he]
  refine ⟨_, rfl, ?_⟩
  simp only [exec8, hop]
  by_cases hgt : s.registers y > s.registers x
  · simp [setAt, hgt, hxF, hyF, Ne.symm hxF]
    omega
  · simp [setAt, hgt, hxF, hyF, Ne.symm hxF]
    omega

/-- C9 at `V0 = 3`, `V1 = 5`, instruction `8015`. -/
theorem C9_sub_borrow_flag_witness :
    ∃ t, execute (withRegs zeroVM [3, 5]) (0x8005 + 0x100 * 0 + 0x10 * 1) 0 = some t ∧
      (t.registers VF = 0 ↔ (withRegs zeroVM [3, 5]).registers 1 > (withRegs zeroVM [3, 5]).registers 0) ∧
      (t.registers VF = 1 ↔ ¬ (withRegs zeroVM [3, 5]).registers 1 > (withRegs zeroVM [3, 5]).registers 0) ∧
      (t.registers 0 : Int)
        = (((withRegs zeroVM [3, 5]).registers 0 : Int) - ((withRegs zeroVM [3, 5]).registers 1 : Int)) % 256 :=
  C9_sub_borrow_flag (withRegs zeroVM [3, 5]) 0 1 0
    ⟨fun _ _ => Nat.zero_lt_succ _, by decide, by decide, fun _ _ => Nat.zero_lt_succ _,
      by decide, by decide, by decide, by decide⟩
    (by decide) (by decide) (by decide) (by decide)

/-- C10. `8xy6` with `x` different from `VF`: afterwards `VF` is the low bit of the old `Vx`,
`Vx` is the old value shifted right by one (its half, rounded down), and `Vy` is unchanged
when `y` is neither `x` nor `VF`. -/
theorem C10_shift_right (s : VM) (x y rnd : Nat) (hx : x < 16) (hy : y < 16) (hxF : x ≠ VF) :
    ∃ t, execute s (0x8006 + 0x100 * x + 0x10 * y) rnd = some t ∧
      t.registers VF = s.registers x &&& 1 ∧
      t.registers x = s.registers x >>> 1 ∧
      t.registers x = s.registers x / 2 ∧
      (y ≠ x → y ≠ VF → t.registers y = s.registers y) := by
  have hw : 0x8006 + 0x100 * x + 0x10 * y = 0x8000 + 0x100 * x + 0x10 * y + 6 := by omega
  obtain ⟨he, hop⟩ := execute_8 s x y 6 rnd hx hy (by omega)
  rw [hw, he]
  refine ⟨_, rfl, ?_⟩
  simp only [exec8, hop]
  have hsh : s.registers x >>> 1 = s.registers x / 2 := by
    rw [Nat.shiftRight_eq_div_pow, Nat.pow_one]
  refine ⟨?_, ?_, ?_, ?_⟩
  · simp [setAt, hxF, Ne.symm hxF]
  · simp [setAt, hxF, Ne.symm hxF]
  · simp [setAt, hxF, Ne.symm hxF, hsh]
  · intro hyx hyF
    simp [setAt, hyx, hyF]

/-- C10 at `V2 = 7`, `V3 = 9`, instruction `8236`. -/
theorem C10_shift_right_witness :
    ∃ t, execute (withRegs zeroVM [0, 0, 7, 9]) (0x8006 + 0x100 * 2 + 0x10 * 3) 0 = some t ∧
      t.registers VF = (withRegs zeroVM [0, 0, 7, 9]).registers 2 &&& 1 ∧
      t.registers 2 = (withRegs zeroVM [0, 0, 7, 9]).registers 2 >>> 1 ∧
      t.registers 2 = (withRegs zeroVM [0, 0, 7, 9]).registers 2 / 2 ∧
      (3 ≠ 2 → 3 ≠ VF → t.registers 3 = (withRegs zeroVM [0, 0, 7, 9]).registers 3) :=
  C10_shift_right (withRegs zeroVM [0, 0, 7, 9]) 2 3 0 (by decide) (by decide) (by decide)

/-- C1. After `6001 61FF` the registers hold `V0 = 1`, `V1 = 255`; executing `8014` then gives
`V0 = 0` and `VF = 0`, although the unwrapped sum 256 exceeds 255: the carry test reads `V0`
after the addition. -/
theorem C1_add_carry_flag_lost :
    ∃ s, runMain [0x60, 0x01, 0x61, 0xFF, 0x80, 0x14] [0, 0] = some s ∧
      s.registers 0 = 1 ∧ s.registers 1 = 255 ∧
      (execute s 0x8014 0).map (fun t => (t.registers 0, t.registers VF)) = some (0, 0) :=
  ⟨_, rfl, by decide, by decide, by decide⟩

/-- C6. After `6001 6102` the registers hold `V0 = 1`, `V1 = 2` and `pc = 0x204`; executing
`9010` then leaves `pc = 0x204`, although the registers differ. -/
theorem C6_skip_ne_not_taken :
    ∃ s, runMain [0x60, 0x01, 0x61, 0x02, 0x90, 0x10] [0, 0] = some s ∧
      s.registers 0 = 1 ∧ s.registers 1 = 2 ∧ s.pc = 0x204 ∧
      (execute s 0x9010 0).map (fun t => t.pc) = some 0x204 :=
  ⟨_, rfl, by decide, by decide, by decide, by decide⟩

/-- C7. After `6001 6103` the registers hold `V0 = 1`, `V1 = 3`; executing `8017` then gives
`V0 = 254 = (1 - 3) mod 256`, not `2 = 3 - 1`. -/
theorem C7_subn_not_reversed :
    ∃ s, runMain [0x60, 0x01, 0x61, 0x03, 0x80, 0x17] [0, 0] = some s ∧
      s.registers 0 = 1 ∧ s.registers 1 = 3 ∧
      (execute s 0x8017 0).map (fun t => (t.registers 0, t.registers 1)) = some (254, 3) :=
  ⟨_, rfl, by decide, by decide, by decide⟩

/-- C8. After `6003` the register `V0` holds 3; executing `800E` then gives `V0 = 1`, the
right shift of 3, not `6`, with `VF = 1`. -/
theorem C8_shl_shifts_right :
    ∃ s, runMain [0x60, 0x03, 0x80, 0x0E] [0] = some s ∧ s.registers 0 = 3 ∧
      (execute s 0x800E 0).map (fun t => (t.registers 0, t.registers VF)) = some (1, 1) :=
  ⟨_, rfl, by decide, by decide⟩

/-! ## Draw sprite -/

theorem DrawFrame.refl (vm : VM) : DrawFrame vm vm :=
  ⟨rfl, rfl, rfl, rfl, rfl, rfl, rfl, rfl, rfl, fun _ _ => rfl⟩

theorem DrawFrame.trans {a b c : VM} (h1 : DrawFrame a b) (h2 : DrawFrame b c) :
    DrawFrame a c := by
  obtain ⟨a1, a2, a3, a4, a5, a6, a7, a8, a9, a10⟩ := h1
  obtain ⟨b1, b2, b3, b4, b5, b6, b7, b8, b9, b10⟩ := h2
  exact ⟨b1.trans a1, b2.trans a2, b3.trans a3, b4.trans a4, b5.trans a5, b6.trans a6,
    b7.trans a7, b8.trans a8, b9.trans a9, fun k hk => (b10 k hk).trans (a10 k hk)⟩

theorem drawPixel_frame (vm : VM) (sr X Y row col : Nat) :
    DrawFrame vm (drawPixel vm sr X Y row col) := by
  unfold drawPixel
  simp only
  split
  · split
    · refine ⟨rfl, rfl, rfl, rfl, rfl, rfl, rfl, rfl, rfl, fun k hk => ?_⟩
      simp [setAt, hk]
    · exact ⟨rfl, rfl, rfl, rfl, rfl, rfl, rfl, rfl, rfl, fun _ _ => rfl⟩
  · exact DrawFrame.refl vm

theorem drawPixel_display (vm : VM) (sr X Y row col px py : Nat) :
    (drawPixel vm sr X Y row col).display px py
      = Bool.xor (vm.display px py) (decide (px = X + col ∧ py = Y + row) && spriteHit sr col) := by
  unfold drawPixel spriteHit
  simp only
  by_cases hs : sr &&& (0x80 >>> col) = 1
  · by_cases hp : px = X + col ∧ py = Y + row
    · obtain ⟨hx, hy⟩ := hp
      subst hx hy
      by_cases hd : vm.display (X + col) (Y + row) = true <;> simp [hs, hd, setPixel]
    · by_cases hd : vm.display (X + col) (Y + row) = true <;> simp [hs, hd, hp, setPixel]
  · simp [hs]

theorem drawCols_frame (sr X Y row : Nat) (k col : Nat) (vm : VM) :
    DrawFrame vm (drawCols sr X Y row k col vm) := by
  induction k generalizing col vm with
  | zero => exact DrawFrame.refl vm
  | succ k ih =>
    unfold drawCols
    split
    · exact DrawFrame.refl vm
    · exact (drawPixel_frame vm sr X Y row col).trans (ih _ _)

theorem drawCols_display (sr X Y row : Nat) (k col : Nat) (vm : VM) (px py : Nat) :
    (drawCols sr X Y row k col vm).display px py
      = Bool.xor (vm.display px py)
          (decide (py = Y + row ∧ X + col ≤ px ∧ px < X + col + k ∧ px < DISPLAY_WIDTH)
            && spriteHit sr (px - X)) := by
  induction k generalizing col vm with
  | zero =>
    have h : ¬ (py = Y + row ∧ X + col ≤ px ∧ px < X + col + 0 ∧ px < DISPLAY_WIDTH) := by omega
    rw [decide_eq_false h]
    simp [drawCols]
  | succ k ih =>
    unfold drawCols
    by_cases hb : X + col ≥ DISPLAY_WIDTH
    · have h : ¬ (py = Y + row ∧ X + col ≤ px ∧ px < X + col + (k + 1) ∧ px < DISPLAY_WIDTH) := by
        omega
      rw [decide_eq_false h, if_pos hb]
      simp
    · rw [if_neg hb, ih, drawPixel_display]
      by_cases h1 : px = X + col
      · subst h1
        have e : X + col - X = col := by omega
        have h2 : ¬ (py = Y + row ∧ X + (col + 1) ≤ X + col ∧ X + col < X + (col + 1) + k ∧
            X + col < DISPLAY_WIDTH) := by omega
        rw [decide_eq_false h2, e]
        by_cases h3 : py = Y + row
        · have h4 : (py = Y + row ∧ X + col ≤ X + col ∧ X + col < X + col + (k + 1) ∧
              X + col < DISPLAY_WIDTH) := by omega
          have h5 : (X + col = X + col ∧ py = Y + row) := ⟨rfl, h3⟩
          rw [decide_eq_true h4, decide_eq_true h5]
          simp
        · have h4 : ¬ (py = Y + row ∧ X + col ≤ X + col ∧ X + col < X + col + (k + 1) ∧
              X + col < DISPLAY_WIDTH) := by omega
          have h5 : ¬ (X + col = X + col ∧ py = Y + row) := fun h => h3 h.2
          rw [decide_eq_false h4, decide_eq_false h5]
          simp
      · have h2 : ¬ (px = X + col ∧ py = Y + row) := by omega
        rw [decide_eq_false h2]
        by_cases h3 : (py = Y + row ∧ X + (col + 1) ≤ px ∧ px < X + (col + 1) + k ∧
            px < DISPLAY_WIDTH)
        · have h4 : (py = Y + row ∧ X + col ≤ px ∧ px < X + col + (k + 1) ∧
              px < DISPLAY_WIDTH) := by omega
          rw [decide_eq_true h3, decide_eq_true h4]
          simp
        · have h4 : ¬ (py = Y + row ∧ X + col ≤ px ∧ px < X + col + (k + 1) ∧
              px < DISPLAY_WIDTH) := by omega
          rw [decide_eq_false h3, decide_eq_false h4]
          simp

theorem drawRows_spec (X Y : Nat) (k row : Nat) (vm : VM) (h : vm.i + row + k ≤ 4096) :
    ∃ vm1, drawRows X Y k row vm = some vm1 ∧ DrawFrame vm vm1 ∧
      ∀ px py, vm1.display px py
        = Bool.xor (vm.display px py)
            (decide (X ≤ px ∧ px < X + 8 ∧ px < DISPLAY_WIDTH ∧
                Y + row ≤ py ∧ py < Y + row + k ∧ py < DISPLAY_HEIGHT)
              && spriteHit (vm.memory ((vm.i + (py - Y)) % 65536)) (px - X)) := by
  induction k generalizing row vm with
  | zero =>
    refine ⟨vm, rfl, DrawFrame.refl vm, fun px py => ?_⟩
    have hm : ¬ (X ≤ px ∧ px < X + 8 ∧ px < DISPLAY_WIDTH ∧
        Y + row ≤ py ∧ py < Y + row + 0 ∧ py < DISPLAY_HEIGHT) := by omega
    rw [decide_eq_false hm]
    simp
  | succ k ih =>
    unfold drawRows
    by_cases hb : Y + row ≥ DISPLAY_HEIGHT
    · rw [if_pos hb]
      refine ⟨vm, rfl, DrawFrame.refl vm, fun px py => ?_⟩
      have hm : ¬ (X ≤ px ∧ px < X + 8 ∧ px < DISPLAY_WIDTH ∧
          Y + row ≤ py ∧ py < Y + row + (k + 1) ∧ py < DISPLAY_HEIGHT) := by omega
      rw [decide_eq_false hm]
      simp
    · have ha : (vm.i + row) % 65536 = vm.i + row := Nat.mod_eq_of_lt (by omega)
      have ha2 : vm.i + row < 4096 := by omega
      rw [if_neg hb]
      simp only [ha, if_pos ha2]
      have hf := drawCols_frame (vm.memory (vm.i + row)) X Y row 8 0 vm
      obtain ⟨vm1, he, hfr, hd⟩ :=
        ih (row + 1) (drawCols (vm.memory (vm.i + row)) X Y row 8 0 vm) (by rw [hf.2.1]; omega)
      refine ⟨vm1, he, hf.trans hfr, fun px py => ?_⟩
      rw [hd, drawCols_display, hf.1, hf.2.1]
      by_cases h1 : py = Y + row
      · subst h1
        have e : (vm.i + (Y + row - Y)) % 65536 = vm.i + row := by
          rw [Nat.add_sub_cancel_left]; exact ha
        have h2 : ¬ (X ≤ px ∧ px < X + 8 ∧ px < DISPLAY_WIDTH ∧
            Y + (row + 1) ≤ Y + row ∧ Y + row < Y + (row + 1) + k ∧ Y + row < DISPLAY_HEIGHT) := by
          omega
        rw [decide_eq_false h2, e]
        by_cases h3 : X ≤ px ∧ px < X + 8 ∧ px < DISPLAY_WIDTH
        · have h4 : (Y + row = Y + row ∧ X + 0 ≤ px ∧ px < X + 0 + 8 ∧ px < DISPLAY_WIDTH) := by
            omega
          have h5 : (X ≤ px ∧ px < X + 8 ∧ px < DISPLAY_WIDTH ∧
              Y + row ≤ Y + row ∧ Y + row < Y + row + (k + 1) ∧ Y + row < DISPLAY_HEIGHT) := by
            omega
          rw [decide_eq_true h4, decide_eq_true h5]
          simp
        · have h4 : ¬ (Y + row = Y + row ∧ X + 0 ≤ px ∧ px < X + 0 + 8 ∧ px < DISPLAY_WIDTH) := by
            omega
          have h5 : ¬ (X ≤ px ∧ px < X + 8 ∧ px < DISPLAY_WIDTH ∧
              Y + row ≤ Y + row ∧ Y + row < Y + row + (k + 1) ∧ Y + row < DISPLAY_HEIGHT) := by
            omega
          rw [decide_eq_false h4, decide_eq_false h5]
          simp
      · have h2 : ¬ (py = Y + row ∧ X + 0 ≤ px ∧ px < X + 0 + 8 ∧ px < DISPLAY_WIDTH) := by
          omega
        rw [decide_eq_false h2]
        by_cases h3 : (X ≤ px ∧ px < X + 8 ∧ px < DISPLAY_WIDTH ∧
            Y + (row + 1) ≤ py ∧ py < Y + (row + 1) + k ∧ py < DISPLAY_HEIGHT)
        · have h4 : (X ≤ px ∧ px < X + 8 ∧ px < DISPLAY_WIDTH ∧
              Y + row ≤ py ∧ py < Y + row + (k + 1) ∧ py < DISPLAY_HEIGHT) := by omega
          rw [decide_eq_true h3, decide_eq_true h4]
          simp
        · have h4 : ¬ (X ≤ px ∧ px < X + 8 ∧ px < DISPLAY_WIDTH ∧
              Y + row ≤ py ∧ py < Y + row + (k + 1) ∧ py < DISPLAY_HEIGHT) := by omega
          rw [decide_eq_false h3, decide_eq_false h4]
          simp

/-- The effect of `Dxyn` on a state whose sprite lies within memory: it completes, toggles
exactly the pixels of `drawMask`, sets the dirty flag, and leaves memory, `I` and every
register other than `VF` as they were. -/
theorem execD_spec (s : VM) (x y n : Nat) (h : s.i + n ≤ 4096) :
    ∃ t, execD s x y n = some t ∧ t.memory = s.memory ∧ t.i = s.i ∧
      (∀ k, k ≠ VF → t.registers k = s.registers k) ∧
      ∀ px py, t.display px py
        = Bool.xor (s.display px py)
            (drawMask s.memory s.i (s.registers x % DISPLAY_WIDTH)
              (s.registers y % DISPLAY_HEIGHT) n px py) := by
  unfold execD
  simp only
  obtain ⟨vm1, he, hfr, hd⟩ :=
    drawRows_spec (s.registers x % DISPLAY_WIDTH) (s.registers y % DISPLAY_HEIGHT) n 0
      { s with registers := setAt s.registers VF 0 } (by simpa using h)
  rw [he]
  refine ⟨_, rfl, hfr.1, hfr.2.1, fun k hk => ?_, fun px py => ?_⟩
  · have := hfr.2.2.2.2.2.2.2.2.2 k hk
    simp only [this, setAt, if_neg hk]
  · simp only [hd, drawMask, Nat.add_zero]

/-- In family `0xD000`, `execute` is `execD` on the decoded fields. -/
theorem execute_D (vm : VM) (x y n rnd : Nat) (hx : x < 16) (hy : y < 16) (hn : n < 16) :
    execute vm (0xD000 + 0x100 * x + 0x10 * y + n) rnd = execD vm x y n := by
  obtain ⟨h1, h2, h3, h4⟩ := decode_nibbles 13 x y n (by omega) hx hy hn
  simp only [Nat.reduceMul] at h1 h2 h3 h4
  simp [execute, h1, h2, h3, h4]

/-- C4. For `x`, `y` different from `VF` and a sprite within memory (`I + n <= 4096`),
executing the same `Dxyn` twice in a row completes both times and leaves every display pixel
as it was before the first draw. -/
theorem C4_draw_twice_restores_display (s : VM) (x y n r1 r2 : Nat)
    (hx : x < 16) (hy : y < 16) (hn : n < 16) (hxF : x ≠ VF) (hyF : y ≠ VF)
    (hI : s.i + n ≤ 4096) :
    ∃ t1 t2, execute s (0xD000 + 0x100 * x + 0x10 * y + n) r1 = some t1 ∧
      execute t1 (0xD000 + 0x100 * x + 0x10 * y + n) r2 = some t2 ∧
      ∀ px py, t2.display px py = s.display px py := by
  obtain ⟨t1, he1, hm1, hi1, hr1, hd1⟩ := execD_spec s x y n hI
  obtain ⟨t2, he2, _, _, _, hd2⟩ := execD_spec t1 x y n (by rw [hi1]; exact hI)
  refine ⟨t1, t2, ?_, ?_, fun px py => ?_⟩
  · rw [execute_D s x y n r1 hx hy hn, he1]
  · rw [execute_D t1 x y n r2 hx hy hn, he2]
  · rw [hd2, hd1, hm1, hi1, hr1 x hxF, hr1 y hyF]
    cases s.display px py <;>
      cases drawMask s.memory s.i (s.registers x % DISPLAY_WIDTH)
        (s.registers y % DISPLAY_HEIGHT) n px py <;> rfl

/-- C4 at the example state with `x = 0`, `y = 1`, `n = 2`: origin `(56, 31)`, where the first
draw turns pixel `(63, 31)` off and the second turns it on again. -/
theorem C4_draw_twice_restores_display_witness :
    ∃ t1 t2, execute drawExample (0xD000 + 0x100 * 0 + 0x10 * 1 + 2) 0 = some t1 ∧
      execute t1 (0xD000 + 0x100 * 0 + 0x10 * 1 + 2) 0 = some t2 ∧
      ∀ px py, t2.display px py = drawExample.display px py :=
  C4_draw_twice_restores_display drawExample 0 1 2 0 0 (by decide) (by decide) (by decide)
    (by decide) (by decide) (by decide)

/-- C5. For a sprite within memory (`I + n <= 4096`) and origin `X = Vx mod 64`,
`Y = Vy mod 32`, `Dxyn` completes and every pixel `(px, py)` whose value it changes has
`X <= px < min (X + 8) 64` and `Y <= py < min (Y + n) 32`; with `X = 60` only columns 60 to 63
can change, and column 0 does not. -/
theorem C5_draw_clipped (s : VM) (x y n rnd : Nat)
    (hx : x < 16) (hy : y < 16) (hn : n < 16) (hI : s.i + n ≤ 4096) :
    ∃ t, execute s (0xD000 + 0x100 * x + 0x10 * y + n) rnd = some t ∧
      (∀ px py, t.display px py ≠ s.display px py →
        s.registers x % 64 ≤ px ∧ px < min (s.registers x % 64 + 8) 64 ∧
        s.registers y % 32 ≤ py ∧ py < min (s.registers y % 32 + n) 32) ∧
      (s.registers x % 64 = 60 →
        (∀ px py, t.display px py ≠ s.display px py → 60 ≤ px ∧ px ≤ 63) ∧
        ∀ py, t.display 0 py = s.display 0 py) := by
  obtain ⟨t, he, _, _, _, hd⟩ := execD_spec s x y n hI
  have key : ∀ px py, t.display px py ≠ s.display px py →
      s.registers x % 64 ≤ px ∧ px < min (s.registers x % 64 + 8) 64 ∧
      s.registers y % 32 ≤ py ∧ py < min (s.registers y % 32 + n) 32 := by
    intro px py hne
    have hmask : drawMask s.memory s.i (s.registers x % DISPLAY_WIDTH)
        (s.registers y % DISPLAY_HEIGHT) n px py = true := by
      rw [hd] at hne
      cases hm : drawMask s.memory s.i (s.registers x % DISPLAY_WIDTH)
        (s.registers y % DISPLAY_HEIGHT) n px py
      · rw [hm] at hne
        simp at hne
      · rfl
    unfold drawMask at hmask
    rw [Bool.and_eq_true, decide_eq_true_eq] at hmask
    have hw := hmask.1
    simp only [DISPLAY_WIDTH, DISPLAY_HEIGHT] at hw
    omega
  refine ⟨t, ?_, key, fun hX => ⟨fun px py hne => ?_, fun py => ?_⟩⟩
  · rw [execute_D s x y n rnd hx hy hn, he]
  · have := key px py hne
    omega
  · by_contra hne
    have := key 0 py hne
    omega

/-- C5 at the example state with `x = 2`, `y = 1`, `n = 2`: origin `(60, 31)`. -/
theorem C5_draw_clipped_witness :
    ∃ t, execute drawExample (0xD000 + 0x100 * 2 + 0x10 * 1 + 2) 0 = some t ∧
      (∀ px py, t.display px py ≠ drawExample.display px py →
        drawExample.registers 2 % 64 ≤ px ∧ px < min (drawExample.registers 2 % 64 + 8) 64 ∧
        drawExample.registers 1 % 32 ≤ py ∧ py < min (drawExample.registers 1 % 32 + 2) 32) ∧
      (drawExample.registers 2 % 64 = 60 →
        (∀ px py, t.display px py ≠ drawExample.display px py → 60 ≤ px ∧ px ≤ 63) ∧
        ∀ py, t.display 0 py = drawExample.display 0 py) :=
  C5_draw_clipped drawExample 2 1 2 0 (by decide) (by decide) (by decide) (by decide)

/-- C2. After `A050` on a fresh machine `I = 0x50` points at the glyph of digit 0, whose first
byte is `0xF0`, with `V0 = V1 = 0` and pixel `(0, 0)` off; executing `D005` then leaves pixel
`(0, 0)` off, although bit 7 of the sprite row is set. -/
theorem C2_draw_drops_sprite_bits :
    ∃ s, runMain [0xA0, 0x50, 0xD0, 0x05] [0] = some s ∧
      s.i = 0x50 ∧ s.memory 0x50 = 0xF0 ∧ s.registers 0 = 0 ∧ s.registers 1 = 0 ∧
      s.display 0 0 = false ∧
      (execute s 0xD005 0).map (fun t => t.display 0 0) = some false :=
  ⟨_, rfl, by decide, by decide, by decide, by decide, by decide, by decide⟩

/-- C3. After `A050` on a fresh machine the display is blank, `I = 0x50` points at the
non-zero glyph bytes `F0 90 90 90 F0` and `V0 = V1 = 0`; executing `D015` twice in a row then
leaves `VF = 0` after the second draw. -/
theorem C3_redraw_reports_no_collision :
    ∃ s, runMain [0xA0, 0x50, 0xD0, 0x15, 0xD0, 0x15] [0] = some s ∧
      (∀ px py, s.display px py = false) ∧ s.i = 0x50 ∧
      (s.memory 0x50, s.memory 0x51, s.memory 0x52, s.memory 0x53, s.memory 0x54)
        = (0xF0, 0x90, 0x90, 0x90, 0xF0) ∧
      s.registers 0 = 0 ∧ s.registers 1 = 0 ∧
      ((execute s 0xD015 0).bind fun t1 => execute t1 0xD015 0).map (fun t2 => t2.registers VF)
        = some 0 :=
  ⟨_, rfl, fun _ _ => rfl, by decide, by decide, by decide, by decide, by decide⟩

/-! ## Fetch and the cycle driver -/

/-- A big-endian pair of bytes assembles to the word `256 * hi + lo`. -/
theorem word_assemble (hi lo : Nat) (hhi : hi < 256) (hlo : lo < 256) :
    ((hi <<< 8) % 65536) ||| lo = 256 * hi + lo := by
  have h1 : hi <<< 8 = 2 ^ 8 * hi := by rw [Nat.shiftLeft_eq, Nat.mul_comm]
  have h2 : (2 ^ 8 * hi) % 65536 = 2 ^ 8 * hi := Nat.mod_eq_of_lt (by omega)
  rw [h1, h2, ← Nat.mul_add_lt_is_or (by simpa using hlo) hi]

/-- The result of `fetch` when the two bytes at `pc` are `hi` and `lo`. -/
theorem fetch_eq (s : VM) (hi lo : Nat) (hp : s.pc + 1 < 4096)
    (h1 : s.memory s.pc = hi) (h2 : s.memory (s.pc + 1) = lo)
    (hhi : hi < 256) (hlo : lo < 256) :
    fetch s = some (256 * hi + lo, { s with pc := s.pc + 2 }) := by
  have ha : (s.pc + 1) % 65536 = s.pc + 1 := Nat.mod_eq_of_lt (by omega)
  have hb : (s.pc + 2) % 65536 = s.pc + 2 := Nat.mod_eq_of_lt (by omega)
  have hc : s.pc < 4096 := by omega
  simp only [fetch, ha, hb, if_pos hc, if_pos hp, h1, h2, word_assemble hi lo hhi hlo]

theorem cycle_eq (s : VM) (rnd : Nat) :
    cycle s rnd = (fetchExecute s rnd).map resetDirty := by
  unfold cycle fetchExecute resetDirty
  cases fetch s with
  | none => rfl
  | some p => rfl

theorem resetDirty_fields (s : VM) :
    (resetDirty s).memory = s.memory ∧ (resetDirty s).display = s.display ∧
    (resetDirty s).pc = s.pc ∧ (resetDirty s).i = s.i ∧ (resetDirty s).stack = s.stack ∧
    (resetDirty s).sp = s.sp ∧ (resetDirty s).delay = s.delay ∧
    (resetDirty s).sound = s.sound ∧ (resetDirty s).registers = s.registers ∧
    (resetDirty s).keys = s.keys := by
  unfold resetDirty
  split <;> exact ⟨rfl, rfl, rfl, rfl, rfl, rfl, rfl, rfl, rfl, rfl⟩

/-! ## Subroutines -/

/-- One iteration of the loop of `Run` on a call `2nnn` at `pc`, with `SP < 16`. -/
theorem cycle_call (s : VM) (nnn rnd : Nat) (hsp : s.sp < 16) (hp : s.pc + 1 < 4096)
    (hn : nnn < 4096) (hc1 : s.memory s.pc = 0x20 + nnn / 256)
    (hc2 : s.memory (s.pc + 1) = nnn % 256) :
    ∃ t, cycle s rnd = some t ∧ t.pc = nnn ∧ t.sp = s.sp + 1 ∧ t.stack s.sp = s.pc + 2 ∧
      t.registers = s.registers ∧ t.i = s.i ∧ t.memory = s.memory ∧
      t.display = s.display := by
  have hw : 256 * (0x20 + nnn / 256) + nnn % 256 = 0x2000 + nnn := by omega
  have hf1 := fetch_eq s (0x20 + nnn / 256) (nnn % 256) hp hc1 hc2 (by omega) (by omega)
  rw [hw] at hf1
  have hcode : (0x2000 + nnn) &&& 0xF000 = 0x2000 := by rw [and_F000]; omega
  have hnnn : (0x2000 + nnn) &&& 0x0FFF = nnn := by rw [and_0FFF]; omega
  have hsp1 : (s.sp + 1) % 256 = s.sp + 1 := Nat.mod_eq_of_lt (by omega)
  have he1 : fetchExecute s rnd
      = some { s with stack := setAt s.stack s.sp (s.pc + 2), sp := s.sp + 1, pc := nnn } := by
    simp [fetchExecute, hf1, execute, hcode, hnnn, hsp, hsp1]
  have hrd := resetDirty_fields
    { s with stack := setAt s.stack s.sp (s.pc + 2), sp := s.sp + 1, pc := nnn }
  refine ⟨_, by rw [cycle_eq, he1]; rfl, ?_, ?_, ?_, ?_, ?_, ?_, ?_⟩
  · rw [hrd.2.2.1]
  · rw [hrd.2.2.2.2.2.1]
  · rw [hrd.2.2.2.2.1]; simp [setAt]
  · rw [hrd.2.2.2.2.2.2.2.2.1]
  · rw [hrd.2.2.2.1]
  · rw [hrd.1]
  · rw [hrd.2.1]

/-- One iteration of the loop of `Run` on a return `00EE` at `pc`, with `1 <= SP <= 16`. -/
theorem cycle_return (s : VM) (rnd : Nat) (hsp0 : 0 < s.sp) (hsp : s.sp ≤ 16)
    (hp : s.pc + 1 < 4096) (hr1 : s.memory s.pc = 0x00) (hr2 : s.memory (s.pc + 1) = 0xEE) :
    ∃ t, cycle s rnd = some t ∧ t.pc = s.stack (s.sp - 1) ∧ t.sp = s.sp - 1 ∧
      t.registers = s.registers ∧ t.i = s.i ∧ t.memory = s.memory ∧
      t.display = s.display := by
  have hf := fetch_eq s 0x00 0xEE hp hr1 hr2 (by omega) (by omega)
  have hsp2 : (s.sp + 255) % 256 = s.sp - 1 := by omega
  have hsp3 : s.sp - 1 < 16 := by omega
  have hcode : (238 : Nat) &&& 61440 = 0 := by decide
  have he : fetchExecute s rnd = some { s with sp := s.sp - 1, pc := s.stack (s.sp - 1) } := by
    simp [fetchExecute, hf, execute, exec0, hsp2, hsp3, hcode]
  have hrd := resetDirty_fields { s with sp := s.sp - 1, pc := s.stack (s.sp - 1) }
  refine ⟨_, by rw [cycle_eq, he]; rfl, ?_, ?_, ?_, ?_, ?_, ?_⟩
  · rw [hrd.2.2.1]
  · rw [hrd.2.2.2.2.2.1]
  · rw [hrd.2.2.2.2.2.2.2.2.1]
  · rw [hrd.2.2.2.1]
  · rw [hrd.1]
  · rw [hrd.2.1]

/-- C11. From a state with `SP < 16` whose `PC = p` points at a call `2nnn` (both bytes within
memory) and whose memory holds `00EE` at `nnn`, two iterations of the loop of `Run` complete
and end with `PC = p + 2` and `SP`, registers, `I`, memory and display as before the call. -/
theorem C11_call_return_round_trip (s : VM) (p nnn r1 r2 : Nat)
    (hsp : s.sp < 16) (hpc : s.pc = p) (hp : p + 1 < 4096) (hn : nnn + 1 < 4096)
    (hc1 : s.memory p = 0x20 + nnn / 256) (hc2 : s.memory (p + 1) = nnn % 256)
    (hr1 : s.memory nnn = 0x00) (hr2 : s.memory (nnn + 1) = 0xEE) :
    ∃ t, cycles [r1, r2] s = some t ∧ t.pc = p + 2 ∧ t.sp = s.sp ∧
      t.registers = s.registers ∧ t.i = s.i ∧ t.memory = s.memory ∧
      t.display = s.display := by
  subst hpc
  obtain ⟨u, hu, upc, usp, ust, ureg, ui, umem, udis⟩ :=
    cycle_call s nnn r1 hsp hp (by omega) hc1 hc2
  obtain ⟨t, ht, tpc, tsp, treg, ti, tmem, tdis⟩ :=
    cycle_return u r2 (by omega) (by omega) (by rw [upc]; exact hn)
      (by rw [upc, umem]; exact hr1) (by rw [upc, umem]; exact hr2)
  refine ⟨t, ?_, ?_, ?_, ?_, ?_, ?_, ?_⟩
  · simp only [cycles, hu, ht]
  · rw [tpc, usp, Nat.add_sub_cancel, ust]
  · rw [tsp, usp, Nat.add_sub_cancel]
  · rw [treg, ureg]
  · rw [ti, ui]
  · rw [tmem, umem]
  · rw [tdis, udis]

/-- C11 on the machine loaded with `2204 0000 00EE`: the call at `0x200` targets the return
at `0x204`. -/
theorem C11_call_return_round_trip_witness :
    ∃ t, cycles [0, 0] (loaded [0x22, 0x04, 0x00, 0x00, 0x00, 0xEE]) = some t ∧
      t.pc = 0x200 + 2 ∧ t.sp = (loaded [0x22, 0x04, 0x00, 0x00, 0x00, 0xEE]).sp ∧
      t.registers = (loaded [0x22, 0x04, 0x00, 0x00, 0x00, 0xEE]).registers ∧
      t.i = (loaded [0x22, 0x04, 0x00, 0x00, 0x00, 0xEE]).i ∧
      t.memory = (loaded [0x22, 0x04, 0x00, 0x00, 0x00, 0xEE]).memory ∧
      t.display = (loaded [0x22, 0x04, 0x00, 0x00, 0x00, 0xEE]).display :=
  C11_call_return_round_trip (loaded [0x22, 0x04, 0x00, 0x00, 0x00, 0xEE]) 0x200 0x204 0 0
    (by decide) (by decide) (by decide) (by decide) (by decide) (by decide) (by decide)
    (by decide)

/-! ## Unmatched instruction words -/

/-- C12, as stated, fails: `0x5121` is in no row of the instruction table, yet on the fresh
machine (where `V1 = V2`) `execute` moves the program counter from `0x200` to `0x202`. -/
theorem C12_word_5121_skips :
    inInstructionTable 0x5121 = false ∧ NewVM.pc = 0x200 ∧
      (execute NewVM 0x5121 0).map (fun t => t.pc) = some 0x202 := by
  decide

/-- A word of family `0` other than `00E0` and `00EE` is a no-op. -/
theorem execute_family0_other (u : VM) (w rnd : Nat) (hc : w / 4096 = 0)
    (h1 : w ≠ 0x00E0) (h2 : w ≠ 0x00EE) : execute u w rnd = some u := by
  have hcode : w &&& 0xF000 = 0 := by rw [and_F000]; omega
  simp [execute, hcode, exec0, h1, h2]

/-- A word of family `8` whose low nibble is none of `0` to `7` and `E` is a no-op. -/
theorem execute_family8_other (u : VM) (w rnd : Nat) (hc : w / 4096 = 8)
    (h1 : ¬ w % 16 ≤ 7) (h2 : w % 16 ≠ 0xE) : execute u w rnd = some u := by
  have hcode : w &&& 0xF000 = 0x8000 := by rw [and_F000]; omega
  have o0 : ¬ (w % 16 = 0) := by omega
  have o1 : ¬ (w % 16 = 1) := by omega
  have o2 : ¬ (w % 16 = 2) := by omega
  have o3 : ¬ (w % 16 = 3) := by omega
  have o4 : ¬ (w % 16 = 4) := by omega
  have o5 : ¬ (w % 16 = 5) := by omega
  have o6 : ¬ (w % 16 = 6) := by omega
  have o7 : ¬ (w % 16 = 7) := by omega
  have o9 : ¬ (w % 16 = 0x9000) := by omega
  simp [execute, hcode, exec8, and_000F, o0, o1, o2, o3, o4, o5, o6, o7, h2, o9]

/-- Every word of family `9` is a no-op: the outer `switch` has no case for it. -/
theorem execute_family9 (u : VM) (w rnd : Nat) (hc : w / 4096 = 9) :
    execute u w rnd = some u := by
  have hcode : w &&& 0xF000 = 0x9000 := by rw [and_F000]; omega
  simp [execute, hcode]

/-- A word of family `E` whose low byte is neither `9E` nor `A1` is a no-op. -/
theorem execute_familyE_other (u : VM) (w rnd : Nat) (hc : w / 4096 = 14)
    (h1 : w % 256 ≠ 0x9E) (h2 : w % 256 ≠ 0xA1) : execute u w rnd = some u := by
  have hcode : w &&& 0xF000 = 0xE000 := by rw [and_F000]; omega
  simp [execute, hcode, execE, and_00FF, h1, h2]

/-- A word of family `F` whose low byte is none of the nine handled ones is a no-op. -/
theorem execute_familyF_other (u : VM) (w rnd : Nat) (hc : w / 4096 = 15)
    (f1 : w % 256 ≠ 0x07) (f2 : w % 256 ≠ 0x0A) (f3 : w % 256 ≠ 0x15) (f4 : w % 256 ≠ 0x18)
    (f5 : w % 256 ≠ 0x1E) (f6 : w % 256 ≠ 0x29) (f7 : w % 256 ≠ 0x33) (f8 : w % 256 ≠ 0x55)
    (f9 : w % 256 ≠ 0x65) : execute u w rnd = some u := by
  have hcode : w &&& 0xF000 = 0xF000 := by rw [and_F000]; omega
  simp [execute, hcode, execF, and_00FF, f1, f2, f3, f4, f5, f6, f7, f8, f9]

/-- The families in which a word outside the instruction table can lie. -/
theorem unmatched_family (w : Nat) (hw : w < 65536) (ht : inInstructionTable w = false) :
    w / 4096 = 0 ∨ w / 4096 = 5 ∨ w / 4096 = 8 ∨ w / 4096 = 9 ∨ w / 4096 = 14 ∨
      w / 4096 = 15 := by
  simp only [inInstructionTable, decide_eq_false_iff_not, not_or] at ht
  have t3 := ht.2.2.1
  have hc16 : w / 4096 < 16 := by omega
  generalize w / 4096 = c at t3 hc16 ⊢
  interval_cases c <;> simp_all

/-- C12, amended. For a 16-bit word `w` in no row of the instruction table and not in family
`5`, `execute` completes and returns the state unchanged; hence when the two bytes at `pc` hold
`w`, fetching and executing it changes `pc` by exactly 2 and nothing else. -/
theorem C12_unmatched_word_noop (s : VM) (w rnd : Nat) (hw : w < 65536)
    (ht : inInstructionTable w = false) (h5 : w / 0x1000 ≠ 5) :
    execute s w rnd = some s ∧
    (s.pc + 1 < 4096 → s.memory s.pc = w / 256 → s.memory (s.pc + 1) = w % 256 →
      fetchExecute s rnd = some { s with pc := s.pc + 2 }) := by
  have key : ∀ u : VM, execute u w rnd = some u := by
    intro u
    have hfam := unmatched_family w hw ht
    simp only [inInstructionTable, decide_eq_false_iff_not, not_or, not_and] at ht
    obtain ⟨t1, t2, _, _, t8, _, tE, tF⟩ := ht
    rcases hfam with hc | hc | hc | hc | hc | hc
    · exact execute_family0_other u w rnd hc t1 t2
    · exact absurd hc h5
    · exact execute_family8_other u w rnd hc (t8 hc).1 (t8 hc).2
    · exact execute_family9 u w rnd hc
    · exact execute_familyE_other u w rnd hc (tE hc).1 (tE hc).2
    · obtain ⟨f1, f2, f3, f4, f5, f6, f7, f8, f9⟩ := tF hc
      exact execute_familyF_other u w rnd hc f1 f2 f3 f4 f5 f6 f7 f8 f9
  refine ⟨key s, fun hp h1 h2 => ?_⟩
  have hf := fetch_eq s (w / 256) (w % 256) hp h1 h2 (by omega) (by omega)
  have hw2 : 256 * (w / 256) + w % 256 = w := by omega
  rw [hw2] at hf
  simp only [fetchExecute, hf, key]

/-- C12, amended, on the machine loaded with the word `9999` at `0x200`. -/
theorem C12_unmatched_word_noop_witness :
    execute (loaded [0x99, 0x99]) 0x9999 0 = some (loaded [0x99, 0x99]) ∧
    ((loaded [0x99, 0x99]).pc + 1 < 4096 →
      (loaded [0x99, 0x99]).memory (loaded [0x99, 0x99]).pc = 0x9999 / 256 →
      (loaded [0x99, 0x99]).memory ((loaded [0x99, 0x99]).pc + 1) = 0x9999 % 256 →
      fetchExecute (loaded [0x99, 0x99]) 0
        = some { loaded [0x99, 0x99] with pc := (loaded [0x99, 0x99]).pc + 2 }) :=
  C12_unmatched_word_noop (loaded [0x99, 0x99]) 0x9999 0 (by decide) (by decide) (by decide)

/-! ## Keypad instructions -/

/-- In family `0xF000` with low byte `nn`, `execute` is `execF` on the decoded register
index. -/
theorem execute_F (vm : VM) (x nn rnd : Nat) (hx : x < 16) (hnn : nn < 256) :
    execute vm (0xF000 + 0x100 * x + nn) rnd = execF vm (0xF000 + 0x100 * x + nn) x ∧
    (0xF000 + 0x100 * x + nn) &&& 0x00FF = nn := by
  have h1 : (0xF000 + 0x100 * x + nn) &&& 0xF000 = 0xF000 := by rw [and_F000]; omega
  have h2 : ((0xF000 + 0x100 * x + nn) &&& 0x0F00) >>> 8 = x := by rw [and_0F00]; omega
  have h3 : (0xF000 + 0x100 * x + nn) &&& 0x00FF = nn := by rw [and_00FF]; omega
  refine ⟨?_, h3⟩
  simp [execute, h1, h2]

/-- In family `0xE000` with low byte `nn`, `execute` is `execE` on the decoded register
index. -/
theorem execute_E (vm : VM) (x nn rnd : Nat) (hx : x < 16) (hnn : nn < 256) :
    execute vm (0xE000 + 0x100 * x + nn) rnd = execE vm (0xE000 + 0x100 * x + nn) x ∧
    (0xE000 + 0x100 * x + nn) &&& 0x00FF = nn := by
  have h1 : (0xE000 + 0x100 * x + nn) &&& 0xF000 = 0xE000 := by rw [and_F000]; omega
  have h2 : ((0xE000 + 0x100 * x + nn) &&& 0x0F00) >>> 8 = x := by rw [and_0F00]; omega
  have h3 : (0xE000 + 0x100 * x + nn) &&& 0x00FF = nn := by rw [and_00FF]; omega
  refine ⟨?_, h3⟩
  simp [execute, h1, h2]

/-- The key scan finds nothing when no key in `[i, i + k)` is pressed. -/
theorem keyScan_none (x : Nat) (k i : Nat) (vm : VM)
    (h : ∀ m, i ≤ m → m < i + k → vm.keys m = false) : keyScan x k i vm = (vm, false) := by
  induction k generalizing i with
  | zero => rfl
  | succ k ih =>
    unfold keyScan
    rw [h i (Nat.le_refl i) (by omega)]
    simp only [Bool.false_eq_true, if_false]
    exact ih (i + 1) (fun m h1 h2 => h m (by omega) (by omega))

/-- The key scan stops at the first pressed key `j` of `[i, i + k)` and stores it. -/
theorem keyScan_first (x : Nat) (k i j : Nat) (vm : VM) (hij : i ≤ j) (hjk : j < i + k)
    (hkey : vm.keys j = true) (hmin : ∀ m, i ≤ m → m < j → vm.keys m = false) :
    keyScan x k i vm = ({ vm with registers := setAt vm.registers x (j % 256) }, true) := by
  induction k generalizing i with
  | zero => omega
  | succ k ih =>
    unfold keyScan
    by_cases hi : i = j
    · subst hi
      rw [hkey]
      simp
    · rw [hmin i (Nat.le_refl i) (by omega)]
      simp only [Bool.false_eq_true, if_false]
      exact ih (i + 1) (by omega) (by omega) (fun m h1 h2 => hmin m (by omega) h2)

/-- The body of `Fx0A` when the key scan finds nothing: `pc` is moved back by two. -/
theorem execF_key_wait_none (u : VM) (w x : Nat) (hop : w &&& 0x00FF = 0x0A)
    (hs : keyScan x 16 0 u = (u, false)) :
    execF u w x = some { u with pc := (u.pc + 65536 - 2) % 65536 } := by
  simp [execF, hop, hs]

/-- Fetching and executing `Fx0A` with no key pressed returns the state it started from. -/
theorem fetchExecute_key_wait (s : VM) (x rnd : Nat) (hx : x < 16)
    (hk : ∀ k, k < 16 → s.keys k = false) (hp : s.pc + 1 < 4096)
    (h1 : s.memory s.pc = 0xF0 + x) (h2 : s.memory (s.pc + 1) = 0x0A) :
    fetchExecute s rnd = some s := by
  have hf := fetch_eq s (0xF0 + x) 0x0A hp h1 h2 (by omega) (by omega)
  have hw : 256 * (0xF0 + x) + 0x0A = 0xF000 + 0x100 * x + 0x0A := by omega
  rw [hw] at hf
  obtain ⟨he, hop⟩ := execute_F { s with pc := s.pc + 2 } x 0x0A rnd hx (by omega)
  have hs := keyScan_none x 16 0 { s with pc := s.pc + 2 }
    (fun m _ h => hk m (by omega))
  have hpc : (s.pc + 2 + 65536 - 2) % 65536 = s.pc := by omega
  simp only [fetchExecute, hf, he, execF_key_wait_none _ _ x hop hs]
  rw [hpc]

/-- C13. With no key pressed and `PC = p` pointing at `Fx0A` (both bytes within memory),
fetching and executing the instruction returns exactly the state it started from, so `PC = p`
and nothing changes; and any number of iterations of the loop of `Run` complete with `PC`,
registers, memory, `I`, stack, `SP`, timers and display unchanged. -/
theorem C13_key_wait_spins (s : VM) (p x rnd : Nat) (hx : x < 16)
    (hk : ∀ k, k < 16 → s.keys k = false) (hpc : s.pc = p) (hp : p + 1 < 4096)
    (h1 : s.memory p = 0xF0 + x) (h2 : s.memory (p + 1) = 0x0A) :
    fetchExecute s rnd = some s ∧
    ∀ rnds : List Nat, ∃ t, cycles rnds s = some t ∧ t.pc = p ∧ t.registers = s.registers ∧
      t.memory = s.memory ∧ t.i = s.i ∧ t.stack = s.stack ∧ t.sp = s.sp ∧
      t.delay = s.delay ∧ t.sound = s.sound ∧ t.display = s.display := by
  subst hpc
  refine ⟨fetchExecute_key_wait s x rnd hx hk hp h1 h2, fun rnds => ?_⟩
  have hidem : resetDirty (resetDirty s) = resetDirty s := by
    unfold resetDirty
    cases hd : s.displayUpdated <;> simp [hd]
  have hrd := resetDirty_fields s
  have hstep : ∀ u : VM, (u = s ∨ u = resetDirty s) → ∀ r, cycle u r = some (resetDirty s) := by
    intro u hu r
    rcases hu with hu | hu
    · subst hu
      rw [cycle_eq, fetchExecute_key_wait u x r hx hk hp h1 h2]
      rfl
    · subst hu
      rw [cycle_eq, fetchExecute_key_wait (resetDirty s) x r hx
        (by rw [hrd.2.2.2.2.2.2.2.2.2]; exact hk)
        (by rw [hrd.2.2.1]; exact hp)
        (by rw [hrd.1, hrd.2.2.1]; exact h1)
        (by rw [hrd.1, hrd.2.2.1]; exact h2)]
      simp only [Option.map_some', hidem]
  have hall : ∀ (l : List Nat) (u : VM), (u = s ∨ u = resetDirty s) →
      (cycles l u = some u ∨ cycles l u = some (resetDirty s)) := by
    intro l
    induction l with
    | nil => intro u _; exact Or.inl rfl
    | cons r rest ih =>
      intro u hu
      simp only [cycles, hstep u hu r]
      rcases ih (resetDirty s) (Or.inr rfl) with h | h
      · exact Or.inr h
      · exact Or.inr h
  rcases hall rnds s (Or.inl rfl) with h | h
  · exact ⟨s, h, rfl, rfl, rfl, rfl, rfl, rfl, rfl, rfl, rfl⟩
  · exact ⟨resetDirty s, h, hrd.2.2.1, hrd.2.2.2.2.2.2.2.2.1, hrd.1, hrd.2.2.2.1,
      hrd.2.2.2.2.1, hrd.2.2.2.2.2.1, hrd.2.2.2.2.2.2.1, hrd.2.2.2.2.2.2.2.1, hrd.2.1⟩

/-- C13 on the machine loaded with `F30A` at `0x200`, run for three iterations. -/
theorem C13_key_wait_spins_witness :
    fetchExecute (loaded [0xF3, 0x0A]) 0 = some (loaded [0xF3, 0x0A]) ∧
    ∃ t, cycles [0, 0, 0] (loaded [0xF3, 0x0A]) = some t ∧ t.pc = 0x200 ∧
      t.registers = (loaded [0xF3, 0x0A]).registers ∧
      t.memory = (loaded [0xF3, 0x0A]).memory ∧ t.i = (loaded [0xF3, 0x0A]).i ∧
      t.stack = (loaded [0xF3, 0x0A]).stack ∧ t.sp = (loaded [0xF3, 0x0A]).sp ∧
      t.delay = (loaded [0xF3, 0x0A]).delay ∧ t.sound = (loaded [0xF3, 0x0A]).sound ∧
      t.display = (loaded [0xF3, 0x0A]).display :=
  ⟨(C13_key_wait_spins (loaded [0xF3, 0x0A]) 0x200 3 0 (by decide) (by decide) (by decide)
      (by decide) (by decide) (by decide)).1,
   (C13_key_wait_spins (loaded [0xF3, 0x0A]) 0x200 3 0 (by decide) (by decide) (by decide)
      (by decide) (by decide) (by decide)).2 [0, 0, 0]⟩

/-- C20. When some key is pressed, `Fx0A` completes and the result is the starting state with
`Vx` set to the smallest pressed key index: `PC` is not rewound and no other register, memory
byte, `I`, stack cell, `SP`, timer, key or display cell changes. -/
theorem C20_key_wait_lowest_key (s : VM) (x rnd : Nat) (hx : x < 16)
    (hk : ∃ k, k < 16 ∧ s.keys k = true) :
    ∃ i, i < 16 ∧ s.keys i = true ∧ (∀ m, m < i → s.keys m = false) ∧
      execute s (0xF00A + 0x100 * x) rnd
        = some { s with registers := setAt s.registers x i } := by
  classical
  have hex : ∃ k, k < 16 ∧ s.keys k = true := hk
  refine ⟨Nat.find hex, (Nat.find_spec hex).1, (Nat.find_spec hex).2, ?_, ?_⟩
  · intro m hm
    have := Nat.find_min hex hm
    have hlt : m < 16 := Nat.lt_trans hm (Nat.find_spec hex).1
    cases hkm : s.keys m
    · rfl
    · exact absurd ⟨hlt, hkm⟩ this
  · have hw : 0xF00A + 0x100 * x = 0xF000 + 0x100 * x + 0x0A := by omega
    obtain ⟨he, hop⟩ := execute_F s x 0x0A rnd hx (by omega)
    have hmin : ∀ m, 0 ≤ m → m < Nat.find hex → s.keys m = false := by
      intro m _ hm
      have := Nat.find_min hex hm
      have hlt : m < 16 := Nat.lt_trans hm (Nat.find_spec hex).1
      cases hkm : s.keys m
      · rfl
      · exact absurd ⟨hlt, hkm⟩ this
    have hs := keyScan_first x 16 0 (Nat.find hex) s (Nat.zero_le _)
      (by have := (Nat.find_spec hex).1; omega) (Nat.find_spec hex).2 hmin
    have hmod : Nat.find hex % 256 = Nat.find hex :=
      Nat.mod_eq_of_lt (by have := (Nat.find_spec hex).1; omega)
    rw [hw, he]
    simp only [execF, hop, hs, hmod]
    simp

/-- C20 with keys 5 and 9 pressed and `x = 2`. -/
theorem C20_key_wait_lowest_key_witness :
    ∃ i, i < 16 ∧ (withKeys zeroVM [9, 5]).keys i = true ∧
      (∀ m, m < i → (withKeys zeroVM [9, 5]).keys m = false) ∧
      execute (withKeys zeroVM [9, 5]) (0xF00A + 0x100 * 2) 0
        = some { withKeys zeroVM [9, 5] with
                 registers := setAt (withKeys zeroVM [9, 5]).registers 2 i } :=
  C20_key_wait_lowest_key (withKeys zeroVM [9, 5]) 2 0 (by decide) ⟨9, by decide, by decide⟩

/-- C19, as stated, fails: after `6010` the register `V0` holds 16, and both `E09E` and
`E0A1` abort on the out-of-range access `vm.keys[16]` instead of reading `key[0]`. -/
theorem C19_key_index_not_reduced :
    ∃ s, runMain [0x60, 0x10, 0xE0, 0x9E] [0] = some s ∧ s.registers 0 = 16 ∧
      (execute s 0xE09E 0).isNone = true ∧ (execute s 0xE0A1 0).isNone = true :=
  ⟨_, rfl, by decide, by decide, by decide⟩

/-- C19, amended. When `Vx < 16`, `Ex9E` and `ExA1` complete, `Ex9E` adding 2 to `pc` exactly
when `key[Vx]` is pressed and `ExA1` exactly when it is not, with nothing else changed; when
`Vx >= 16` both abort on the out-of-range key index. -/
theorem C19_key_query_in_range (s : VM) (x rnd : Nat) (hx : x < 16) :
    (s.registers x < 16 →
      execute s (0xE09E + 0x100 * x) rnd
        = some (if s.keys (s.registers x) = true then skip s else s) ∧
      execute s (0xE0A1 + 0x100 * x) rnd
        = some (if s.keys (s.registers x) = true then s else skip s)) ∧
    (16 ≤ s.registers x →
      execute s (0xE09E + 0x100 * x) rnd = none ∧
      execute s (0xE0A1 + 0x100 * x) rnd = none) := by
  have hw1 : 0xE09E + 0x100 * x = 0xE000 + 0x100 * x + 0x9E := by omega
  have hw2 : 0xE0A1 + 0x100 * x = 0xE000 + 0x100 * x + 0xA1 := by omega
  obtain ⟨he1, hop1⟩ := execute_E s x 0x9E rnd hx (by omega)
  obtain ⟨he2, hop2⟩ := execute_E s x 0xA1 rnd hx (by omega)
  rw [hw1, hw2, he1, he2]
  constructor
  · intro hv
    constructor
    · simp [execE, hop1, hv]
    · cases hk : s.keys (s.registers x) <;> simp [execE, hop2, hv, hk]
  · intro hv
    have hv2 : ¬ s.registers x < 16 := by omega
    constructor
    · simp [execE, hop1, hv2]
    · simp [execE, hop2, hv2]

/-- C19, amended, with `V0 = 3`, key 3 pressed and `x = 0`. -/
theorem C19_key_query_in_range_witness :
    ((withRegs (withKeys zeroVM [3]) [3]).registers 0 < 16 →
      execute (withRegs (withKeys zeroVM [3]) [3]) (0xE09E + 0x100 * 0) 0
        = some (if (withRegs (withKeys zeroVM [3]) [3]).keys
                    ((withRegs (withKeys zeroVM [3]) [3]).registers 0) = true
                then skip (withRegs (withKeys zeroVM [3]) [3])
                else withRegs (withKeys zeroVM [3]) [3]) ∧
      execute (withRegs (withKeys zeroVM [3]) [3]) (0xE0A1 + 0x100 * 0) 0
        = some (if (withRegs (withKeys zeroVM [3]) [3]).keys
                    ((withRegs (withKeys zeroVM [3]) [3]).registers 0) = true
                then withRegs (withKeys zeroVM [3]) [3]
                else skip (withRegs (withKeys zeroVM [3]) [3]))) ∧
    (16 ≤ (withRegs (withKeys zeroVM [3]) [3]).registers 0 →
      execute (withRegs (withKeys zeroVM [3]) [3]) (0xE09E + 0x100 * 0) 0 = none ∧
      execute (withRegs (withKeys zeroVM [3]) [3]) (0xE0A1 + 0x100 * 0) 0 = none) :=
  C19_key_query_in_range (withRegs (withKeys zeroVM [3]) [3]) 0 0 (by decide)

/-! ## Memory instructions -/

/-- C14. For a well-formed state with `I + 2 < 4096`, `Fx33` completes, the three bytes at
`I`, `I + 1`, `I + 2` are decimal digits with `100 * h + 10 * t + o = Vx` (so `2, 5, 5` for
`Vx = 255`), and every other memory byte is unchanged. -/
theorem C14_bcd_store (s : VM) (x rnd : Nat) (hwf : s.WF) (hx : x < 16)
    (hI : s.i + 2 < 4096) :
    ∃ t, execute s (0xF033 + 0x100 * x) rnd = some t ∧
      t.memory s.i ≤ 9 ∧ t.memory (s.i + 1) ≤ 9 ∧ t.memory (s.i + 2) ≤ 9 ∧
      100 * t.memory s.i + 10 * t.memory (s.i + 1) + t.memory (s.i + 2) = s.registers x ∧
      (s.registers x = 255 →
        t.memory s.i = 2 ∧ t.memory (s.i + 1) = 5 ∧ t.memory (s.i + 2) = 5) ∧
      ∀ a, a ≠ s.i → a ≠ s.i + 1 → a ≠ s.i + 2 → t.memory a = s.memory a := by
  have hw : 0xF033 + 0x100 * x = 0xF000 + 0x100 * x + 0x33 := by omega
  obtain ⟨he, hop⟩ := execute_F s x 0x33 rnd hx (by omega)
  have hv := hwf.2.2.2.2.2.2.2 x hx
  have h0 : s.i < 4096 := by omega
  have h1 : (s.i + 1) % 65536 = s.i + 1 := Nat.mod_eq_of_lt (by omega)
  have h2 : (s.i + 2) % 65536 = s.i + 2 := Nat.mod_eq_of_lt (by omega)
  have h1b : s.i + 1 < 4096 := by omega
  have hres : execF s (0xF000 + 0x100 * x + 0x33) x
      = some { s with memory := (setAt (setAt (setAt s.memory s.i (s.registers x / 100))
          (s.i + 1) ((s.registers x / 10) % 10)) (s.i + 2) ((s.registers x % 100) % 10)) } := by
    simp [execF, hop, h0, h1, h2, h1b, hI]
  rw [hw, he, hres]
  refine ⟨_, rfl, ?_, ?_, ?_, ?_, ?_, ?_⟩
  · simp [setAt]; omega
  · simp [setAt]; omega
  · simp [setAt]; omega
  · simp [setAt]; omega
  · intro h255
    simp [setAt, h255]
  · intro a ha0 ha1 ha2
    simp [setAt, ha0, ha1, ha2]

/-- C14 with `V0 = 255` and `I = 0`. -/
theorem C14_bcd_store_witness :
    ∃ t, execute (withRegs zeroVM [255]) (0xF033 + 0x100 * 0) 0 = some t ∧
      t.memory (withRegs zeroVM [255]).i ≤ 9 ∧ t.memory ((withRegs zeroVM [255]).i + 1) ≤ 9 ∧
      t.memory ((withRegs zeroVM [255]).i + 2) ≤ 9 ∧
      100 * t.memory (withRegs zeroVM [255]).i + 10 * t.memory ((withRegs zeroVM [255]).i + 1)
        + t.memory ((withRegs zeroVM [255]).i + 2) = (withRegs zeroVM [255]).registers 0 ∧
      ((withRegs zeroVM [255]).registers 0 = 255 →
        t.memory (withRegs zeroVM [255]).i = 2 ∧ t.memory ((withRegs zeroVM [255]).i + 1) = 5 ∧
        t.memory ((withRegs zeroVM [255]).i + 2) = 5) ∧
      ∀ a, a ≠ (withRegs zeroVM [255]).i → a ≠ (withRegs zeroVM [255]).i + 1 →
        a ≠ (withRegs zeroVM [255]).i + 2 → t.memory a = (withRegs zeroVM [255]).memory a :=
  C14_bcd_store (withRegs zeroVM [255]) 0 0
    ⟨fun _ _ => Nat.zero_lt_succ _, by decide, by decide, fun _ _ => Nat.zero_lt_succ _,
      by decide, by decide, by decide, by decide⟩
    (by decide) (by decide)

/-- The loop of `Fx55` run for `k` more registers from index `i`, with the written range
inside memory: it completes and copies registers `i` to `i + k - 1` to `I + i` onwards. -/
theorem storeRegs_spec (k i : Nat) (vm : VM) (h : vm.i + i + k ≤ 4096) :
    ∃ t, storeRegs k i vm = some t ∧ t.registers = vm.registers ∧ t.i = vm.i ∧
      ∀ a, t.memory a
        = if vm.i + i ≤ a ∧ a < vm.i + i + k then vm.registers (a - vm.i) else vm.memory a := by
  induction k generalizing i vm with
  | zero =>
    refine ⟨vm, rfl, rfl, rfl, fun a => ?_⟩
    have hn : ¬ (vm.i + i ≤ a ∧ a < vm.i + i + 0) := by omega
    rw [if_neg hn]
  | succ k ih =>
    unfold storeRegs
    have ha : (vm.i + i) % 65536 = vm.i + i := Nat.mod_eq_of_lt (by omega)
    have ha2 : vm.i + i < 4096 := by omega
    simp only [ha, if_pos ha2]
    obtain ⟨t, he, hr, hi, hm⟩ :=
      ih (i + 1) { vm with memory := setAt vm.memory (vm.i + i) (vm.registers i) }
        (by show vm.i + (i + 1) + k ≤ 4096; omega)
    refine ⟨t, he, hr, hi, fun a => ?_⟩
    rw [hm a]
    show (if vm.i + (i + 1) ≤ a ∧ a < vm.i + (i + 1) + k then vm.registers (a - vm.i)
      else setAt vm.memory (vm.i + i) (vm.registers i) a) = _
    by_cases h1 : a = vm.i + i
    · have hn : ¬ (vm.i + (i + 1) ≤ a ∧ a < vm.i + (i + 1) + k) := by omega
      have hp : vm.i + i ≤ a ∧ a < vm.i + i + (k + 1) := by omega
      have hidx : a - vm.i = i := by omega
      rw [if_neg hn, if_pos hp, hidx]
      simp [setAt, h1]
    · by_cases h2 : vm.i + (i + 1) ≤ a ∧ a < vm.i + (i + 1) + k
      · have hp : vm.i + i ≤ a ∧ a < vm.i + i + (k + 1) := by omega
        rw [if_pos h2, if_pos hp]
      · have hn : ¬ (vm.i + i ≤ a ∧ a < vm.i + i + (k + 1)) := by omega
        rw [if_neg h2, if_neg hn]
        simp [setAt, h1]

/-- The loop of `Fx65` run for `k` more registers from index `i`, with the read range inside
memory: it completes and loads registers `i` to `i + k - 1` from `I + i` onwards. -/
theorem loadRegs_spec (k i : Nat) (vm : VM) (h : vm.i + i + k ≤ 4096) :
    ∃ t, loadRegs k i vm = some t ∧ t.memory = vm.memory ∧ t.i = vm.i ∧
      ∀ j, t.registers j
        = if i ≤ j ∧ j < i + k then vm.memory (vm.i + j) else vm.registers j := by
  induction k generalizing i vm with
  | zero =>
    refine ⟨vm, rfl, rfl, rfl, fun j => ?_⟩
    have hn : ¬ (i ≤ j ∧ j < i + 0) := by omega
    rw [if_neg hn]
  | succ k ih =>
    unfold loadRegs
    have ha : (vm.i + i) % 65536 = vm.i + i := Nat.mod_eq_of_lt (by omega)
    have ha2 : vm.i + i < 4096 := by omega
    simp only [ha, if_pos ha2]
    obtain ⟨t, he, hm, hi, hr⟩ :=
      ih (i + 1) { vm with registers := setAt vm.registers i (vm.memory (vm.i + i)) }
        (by show vm.i + (i + 1) + k ≤ 4096; omega)
    refine ⟨t, he, hm, hi, fun j => ?_⟩
    rw [hr j]
    show (if i + 1 ≤ j ∧ j < i + 1 + k then vm.memory (vm.i + j)
      else setAt vm.registers i (vm.memory (vm.i + i)) j) = _
    by_cases h1 : j = i
    · have hn : ¬ (i + 1 ≤ j ∧ j < i + 1 + k) := by omega
      have hp : i ≤ j ∧ j < i + (k + 1) := by omega
      rw [if_neg hn, if_pos hp]
      simp [setAt, h1]
    · by_cases h2 : i + 1 ≤ j ∧ j < i + 1 + k
      · have hp : i ≤ j ∧ j < i + (k + 1) := by omega
        rw [if_pos h2, if_pos hp]
      · have hn : ¬ (i ≤ j ∧ j < i + (k + 1)) := by omega
        rw [if_neg h2, if_neg hn]
        simp [setAt, h1]

/-- C15. With `I + x < 4096`, `Fx55` completes, writes `memory[I + k] = Vk` for every
`k <= x` and changes no other memory byte, no register and not `I`; and on any state with the
resulting memory and `I`, `Fx65` completes, sets `Vk` for `k <= x` to the stored values and
leaves `Vk` for `k > x` alone. -/
theorem C15_store_load_round_trip (s : VM) (x r1 : Nat) (hx : x < 16)
    (hI : s.i + x < 4096) :
    ∃ u, execute s (0xF055 + 0x100 * x) r1 = some u ∧
      (∀ k, k ≤ x → u.memory (s.i + k) = s.registers k) ∧
      (∀ a, (a < s.i ∨ s.i + x < a) → u.memory a = s.memory a) ∧
      u.registers = s.registers ∧ u.i = s.i ∧
      ∀ (t : VM) (r2 : Nat), t.memory = u.memory → t.i = u.i →
        ∃ v, execute t (0xF065 + 0x100 * x) r2 = some v ∧
          (∀ k, k ≤ x → v.registers k = s.registers k) ∧
          (∀ k, x < k → v.registers k = t.registers k) := by
  have hw1 : 0xF055 + 0x100 * x = 0xF000 + 0x100 * x + 0x55 := by omega
  have hw2 : 0xF065 + 0x100 * x = 0xF000 + 0x100 * x + 0x65 := by omega
  obtain ⟨he1, hop1⟩ := execute_F s x 0x55 r1 hx (by omega)
  obtain ⟨u, hu, hur, hui, hum⟩ := storeRegs_spec (x + 1) 0 s (by omega)
  have hF1 : execF s (0xF000 + 0x100 * x + 0x55) x = some u := by
    simp [execF, hop1, hu]
  rw [hw1, he1, hF1]
  refine ⟨u, rfl, fun k hk => ?_, fun a ha => ?_, hur, hui, fun t r2 htm hti => ?_⟩
  · rw [hum]
    have hp : s.i + 0 ≤ s.i + k ∧ s.i + k < s.i + 0 + (x + 1) := by omega
    rw [if_pos hp, Nat.add_sub_cancel_left]
  · rw [hum]
    have hn : ¬ (s.i + 0 ≤ a ∧ a < s.i + 0 + (x + 1)) := by omega
    rw [if_neg hn]
  · obtain ⟨he2, hop2⟩ := execute_F t x 0x65 r2 hx (by omega)
    obtain ⟨v, hv, _, _, hvr⟩ := loadRegs_spec (x + 1) 0 t (by rw [hti, hui]; omega)
    have hF2 : execF t (0xF000 + 0x100 * x + 0x65) x = some v := by
      simp [execF, hop2, hv]
    rw [hw2, he2, hF2]
    refine ⟨v, rfl, fun k hk => ?_, fun k hk => ?_⟩
    · rw [hvr]
      have hp : 0 ≤ k ∧ k < 0 + (x + 1) := by omega
      rw [if_pos hp, htm, hti, hui, hum]
      have hp2 : s.i + 0 ≤ s.i + k ∧ s.i + k < s.i + 0 + (x + 1) := by omega
      rw [if_pos hp2, Nat.add_sub_cancel_left]
    · rw [hvr]
      have hn : ¬ (0 ≤ k ∧ k < 0 + (x + 1)) := by omega
      rw [if_neg hn]

/-- C15 with `V0 = 7`, `V1 = 8`, `V2 = 9`, `I = 0` and `x = 1`. -/
theorem C15_store_load_round_trip_witness :
    ∃ u, execute (withRegs zeroVM [7, 8, 9]) (0xF055 + 0x100 * 1) 0 = some u ∧
      (∀ k, k ≤ 1 → u.memory ((withRegs zeroVM [7, 8, 9]).i + k)
        = (withRegs zeroVM [7, 8, 9]).registers k) ∧
      (∀ a, (a < (withRegs zeroVM [7, 8, 9]).i ∨ (withRegs zeroVM [7, 8, 9]).i + 1 < a) →
        u.memory a = (withRegs zeroVM [7, 8, 9]).memory a) ∧
      u.registers = (withRegs zeroVM [7, 8, 9]).registers ∧
      u.i = (withRegs zeroVM [7, 8, 9]).i ∧
      ∀ (t : VM) (r2 : Nat), t.memory = u.memory → t.i = u.i →
        ∃ v, execute t (0xF065 + 0x100 * 1) r2 = some v ∧
          (∀ k, k ≤ 1 → v.registers k = (withRegs zeroVM [7, 8, 9]).registers k) ∧
          (∀ k, 1 < k → v.registers k = t.registers k) :=
  C15_store_load_round_trip (withRegs zeroVM [7, 8, 9]) 1 0 (by decide) (by decide)

/-! ## Construction and loading -/

/-- The font loop run for `k` more bytes from index `i` writes `FONTSET[j]` to `0x50 + j` for
`i <= j < i + k` and nothing else. -/
theorem loadFontset_spec (k i : Nat) (vm : VM) :
    (loadFontset k i vm).pc = vm.pc ∧
    ∀ a, (loadFontset k i vm).memory a
      = if 0x50 + i ≤ a ∧ a < 0x50 + i + k then FONTSET.getD (a - 0x50) 0 else vm.memory a := by
  induction k generalizing i vm with
  | zero =>
    refine ⟨rfl, fun a => ?_⟩
    have hn : ¬ (0x50 + i ≤ a ∧ a < 0x50 + i + 0) := by omega
    rw [if_neg hn]
    rfl
  | succ k ih =>
    unfold loadFontset
    obtain ⟨hpc, hm⟩ := ih (i + 1)
      { vm with memory := setAt vm.memory (FONTSET_START_ADDRESS + i) (FONTSET.getD i 0) }
    refine ⟨hpc, fun a => ?_⟩
    rw [hm a]
    show (if 0x50 + (i + 1) ≤ a ∧ a < 0x50 + (i + 1) + k then FONTSET.getD (a - 0x50) 0
      else setAt vm.memory (0x50 + i) (FONTSET.getD i 0) a) = _
    by_cases h1 : a = 0x50 + i
    · have hn : ¬ (0x50 + (i + 1) ≤ a ∧ a < 0x50 + (i + 1) + k) := by omega
      have hp : 0x50 + i ≤ a ∧ a < 0x50 + i + (k + 1) := by omega
      have hidx : a - 0x50 = i := by omega
      rw [if_neg hn, if_pos hp, hidx]
      simp [setAt, h1]
    · by_cases h2 : 0x50 + (i + 1) ≤ a ∧ a < 0x50 + (i + 1) + k
      · have hp : 0x50 + i ≤ a ∧ a < 0x50 + i + (k + 1) := by omega
        rw [if_pos h2, if_pos hp]
      · have hn : ¬ (0x50 + i ≤ a ∧ a < 0x50 + i + (k + 1)) := by omega
        rw [if_neg h2, if_neg hn]
        simp [setAt, h1]

/-- The loop of `LoadProgram` run for `k` more bytes from index `i`, with the written range
inside memory: it completes and writes `ram[j]` to `0x200 + j` for `i <= j < i + k`. -/
theorem loadLoop_spec (ram : List Nat) (k i : Nat) (vm : VM) (h : i + k ≤ 3584) :
    ∃ t, loadLoop ram k i vm = some t ∧ t.pc = vm.pc ∧
      ∀ a, t.memory a
        = if 0x200 + i ≤ a ∧ a < 0x200 + i + k then ram.getD (a - 0x200) 0 else vm.memory a := by
  induction k generalizing i vm with
  | zero =>
    refine ⟨vm, rfl, rfl, fun a => ?_⟩
    have hn : ¬ (0x200 + i ≤ a ∧ a < 0x200 + i + 0) := by omega
    rw [if_neg hn]
  | succ k ih =>
    have ha : i + 0x200 < 4096 := by omega
    simp only [loadLoop, if_pos ha]
    obtain ⟨t, he, hpc, hm⟩ :=
      ih (i + 1) { vm with memory := setAt vm.memory (i + 0x200) (ram.getD i 0) } (by omega)
    refine ⟨t, he, hpc, fun a => ?_⟩
    rw [hm a]
    show (if 0x200 + (i + 1) ≤ a ∧ a < 0x200 + (i + 1) + k then ram.getD (a - 0x200) 0
      else setAt vm.memory (i + 0x200) (ram.getD i 0) a) = _
    by_cases h1 : a = i + 0x200
    · have hn : ¬ (0x200 + (i + 1) ≤ a ∧ a < 0x200 + (i + 1) + k) := by omega
      have hp : 0x200 + i ≤ a ∧ a < 0x200 + i + (k + 1) := by omega
      have hidx : a - 0x200 = i := by omega
      rw [if_neg hn, if_pos hp, hidx]
      simp [setAt, h1]
    · by_cases h2 : 0x200 + (i + 1) ≤ a ∧ a < 0x200 + (i + 1) + k
      · have hp : 0x200 + i ≤ a ∧ a < 0x200 + i + (k + 1) := by omega
        rw [if_pos h2, if_pos hp]
      · have hn : ¬ (0x200 + i ≤ a ∧ a < 0x200 + i + (k + 1)) := by omega
        rw [if_neg h2, if_neg hn]
        simp [setAt, h1]

/-- Whenever the loop of `LoadProgram` completes, memory below `0x200` is as before. -/
theorem loadLoop_below (ram : List Nat) (k i : Nat) (vm t : VM)
    (h : loadLoop ram k i vm = some t) : ∀ a, a < 0x200 → t.memory a = vm.memory a := by
  induction k generalizing i vm with
  | zero =>
    intro a _
    have : vm = t := Option.some.inj h
    rw [this]
  | succ k ih =>
    intro a ha
    by_cases hb : i + 0x200 < 4096
    · simp only [loadLoop, if_pos hb] at h
      rw [ih (i + 1) _ h a ha]
      have hne : a ≠ i + 0x200 := by omega
      simp [setAt, hne]
    · simp only [loadLoop, if_neg hb] at h
      exact absurd h (by simp)

/-- C16. For a program of at most 3584 bytes, `LoadProgram` on the state of `NewVM` completes
with `memory[0x200 + k] = ram[k]`, the font at `0x50`, every other byte 0 and `pc = 0x200`;
and in any state, a completed `LoadProgram` leaves memory below `0x200` unchanged. -/
theorem C16_load_program_layout (ram : List Nat) (hlen : ram.length ≤ 3584) :
    (∃ t, LoadProgram NewVM ram = some t ∧
      (∀ k, k < ram.length → t.memory (0x200 + k) = ram.getD k 0) ∧
      (∀ k, k < 80 → t.memory (0x50 + k) = FONTSET.getD k 0) ∧
      (∀ a, ¬ (0x50 ≤ a ∧ a < 0x50 + 80) → ¬ (0x200 ≤ a ∧ a < 0x200 + ram.length) →
        t.memory a = 0) ∧
      t.pc = 0x200) ∧
    ∀ (s : VM) (ram2 : List Nat) (t : VM), LoadProgram s ram2 = some t →
      ∀ a, a < 0x200 → t.memory a = s.memory a := by
  refine ⟨?_, fun s ram2 t h => loadLoop_below ram2 ram2.length 0 s t h⟩
  obtain ⟨t, he, hpc, hm⟩ := loadLoop_spec ram ram.length 0 NewVM (by omega)
  obtain ⟨fpc, fm⟩ := loadFontset_spec FONTSET.length 0 { zeroVM with pc := 0x200 }
  have hflen : FONTSET.length = 80 := rfl
  have hnew : ∀ a, NewVM.memory a
      = if 0x50 ≤ a ∧ a < 0x50 + 80 then FONTSET.getD (a - 0x50) 0 else 0 := by
    intro a
    show (loadFontset FONTSET.length 0 { zeroVM with pc := 0x200 }).memory a = _
    rw [fm a, hflen]
    rfl
  refine ⟨t, he, fun k hk => ?_, fun k hk => ?_, fun a h1 h2 => ?_, ?_⟩
  · rw [hm]
    have hp : 0x200 + 0 ≤ 0x200 + k ∧ 0x200 + k < 0x200 + 0 + ram.length := by omega
    rw [if_pos hp, Nat.add_sub_cancel_left]
  · rw [hm]
    have hn : ¬ (0x200 + 0 ≤ 0x50 + k ∧ 0x50 + k < 0x200 + 0 + ram.length) := by omega
    rw [if_neg hn, hnew]
    have hp : 0x50 ≤ 0x50 + k ∧ 0x50 + k < 0x50 + 80 := by omega
    rw [if_pos hp, Nat.add_sub_cancel_left]
  · rw [hm]
    have hn : ¬ (0x200 + 0 ≤ a ∧ a < 0x200 + 0 + ram.length) := by omega
    rw [if_neg hn, hnew, if_neg h1]
  · rw [hpc]
    exact fpc

/-- C16 for the six-byte program `6001 61FF 8014`. -/
theorem C16_load_program_layout_witness :
    (∃ t, LoadProgram NewVM [0x60, 0x01, 0x61, 0xFF, 0x80, 0x14] = some t ∧
      (∀ k, k < [0x60, 0x01, 0x61, 0xFF, 0x80, 0x14].length →
        t.memory (0x200 + k) = [0x60, 0x01, 0x61, 0xFF, 0x80, 0x14].getD k 0) ∧
      (∀ k, k < 80 → t.memory (0x50 + k) = FONTSET.getD k 0) ∧
      (∀ a, ¬ (0x50 ≤ a ∧ a < 0x50 + 80) →
        ¬ (0x200 ≤ a ∧ a < 0x200 + [0x60, 0x01, 0x61, 0xFF, 0x80, 0x14].length) →
        t.memory a = 0) ∧
      t.pc = 0x200) ∧
    ∀ (s : VM) (ram2 : List Nat) (t : VM), LoadProgram s ram2 = some t →
      ∀ a, a < 0x200 → t.memory a = s.memory a :=
  C16_load_program_layout [0x60, 0x01, 0x61, 0xFF, 0x80, 0x14] (by decide)

/-! ## Effect of `execute` on display, `sp` and `pc` -/

theorem PlainStep.same {u t : VM} (hd : t.display = u.display) (hs : t.sp = u.sp)
    (hp : t.pc = u.pc) : PlainStep u t :=
  ⟨hd, hs, Or.inl hp⟩

theorem skip_plain (u : VM) : PlainStep u (skip u) :=
  ⟨rfl, rfl, Or.inr (Or.inl rfl)⟩

theorem exec8_plain (u : VM) (w x y : Nat) : PlainStep u (exec8 u w x y) := by
  unfold exec8
  simp only
  split_ifs
  all_goals first
    | exact PlainStep.same rfl rfl rfl
    | exact skip_plain u

theorem execE_plain (u t : VM) (w x : Nat) (h : execE u w x = some t) : PlainStep u t := by
  unfold execE at h
  simp only at h
  split_ifs at h
  all_goals first
    | (have h2 := Option.some.inj h; subst h2; exact skip_plain u)
    | (have h2 := Option.some.inj h; subst h2; exact PlainStep.same rfl rfl rfl)

theorem keyScan_fields (x k i : Nat) (vm : VM) :
    (keyScan x k i vm).1.display = vm.display ∧ (keyScan x k i vm).1.sp = vm.sp ∧
      (keyScan x k i vm).1.pc = vm.pc := by
  induction k generalizing i with
  | zero => exact ⟨rfl, rfl, rfl⟩
  | succ k ih =>
    unfold keyScan
    split
    · exact ⟨rfl, rfl, rfl⟩
    · exact ih (i + 1)

theorem storeRegs_fields (k i : Nat) (vm t : VM) (h : storeRegs k i vm = some t) :
    t.display = vm.display ∧ t.sp = vm.sp ∧ t.pc = vm.pc := by
  induction k generalizing i vm with
  | zero =>
    have h2 : vm = t := Option.some.inj h
    subst h2
    exact ⟨rfl, rfl, rfl⟩
  | succ k ih =>
    unfold storeRegs at h
    simp only at h
    split at h
    · have h3 := ih (i + 1) _ h
      exact h3
    · exact absurd h (by simp)

theorem loadRegs_fields (k i : Nat) (vm t : VM) (h : loadRegs k i vm = some t) :
    t.display = vm.display ∧ t.sp = vm.sp ∧ t.pc = vm.pc := by
  induction k generalizing i vm with
  | zero =>
    have h2 : vm = t := Option.some.inj h
    subst h2
    exact ⟨rfl, rfl, rfl⟩
  | succ k ih =>
    unfold loadRegs at h
    simp only at h
    split at h
    · have h3 := ih (i + 1) _ h
      exact h3
    · exact absurd h (by simp)

theorem drawRows_frame (X Y : Nat) (k row : Nat) (vm t : VM)
    (h : drawRows X Y k row vm = some t) : DrawFrame vm t := by
  induction k generalizing row vm with
  | zero =>
    have h2 : vm = t := Option.some.inj h
    subst h2
    exact DrawFrame.refl vm
  | succ k ih =>
    unfold drawRows at h
    simp only at h
    split at h
    · have h2 : vm = t := Option.some.inj h
      subst h2
      exact DrawFrame.refl vm
    · split at h
      · exact (drawCols_frame _ X Y row 8 0 vm).trans (ih (row + 1) _ h)
      · exact absurd h (by simp)

theorem execD_effect (u t : VM) (x y n : Nat) (h : execD u x y n = some t) :
    t.displayUpdated = true ∧ t.sp = u.sp ∧ t.pc = u.pc := by
  unfold execD at h
  simp only at h
  cases hd : drawRows (u.registers x % DISPLAY_WIDTH) (u.registers y % DISPLAY_HEIGHT) n 0
      { u with registers := setAt u.registers VF 0 } with
  | none =>
    rw [hd] at h
    exact absurd h (by simp)
  | some v =>
    rw [hd] at h
    have h2 := Option.some.inj h
    have hfr := drawRows_frame _ _ _ _ _ _ hd
    subst h2
    exact ⟨rfl, hfr.2.2.2.2.1, hfr.2.2.1⟩

theorem execF_plain (u t : VM) (w x : Nat) (h : execF u w x = some t) : PlainStep u t := by
  unfold execF at h
  simp only at h
  have hk := keyScan_fields x 16 0 u
  by_cases c1 : w &&& 0x00FF = 0x0007
  · rw [if_pos c1] at h
    have e := Option.some.inj h; subst e; exact PlainStep.same rfl rfl rfl
  rw [if_neg c1] at h
  by_cases c2 : w &&& 0x00FF = 0x000A
  · rw [if_pos c2] at h
    split at h
    · have e := Option.some.inj h; subst e
      refine ⟨hk.1, hk.2.1, Or.inr (Or.inr ?_)⟩
      show ((keyScan x 16 0 u).1.pc + 65536 - 2) % 65536 = _
      rw [hk.2.2]
    · have e := Option.some.inj h; subst e; exact PlainStep.same hk.1 hk.2.1 hk.2.2
  rw [if_neg c2] at h
  by_cases c3 : w &&& 0x00FF = 0x0015
  · rw [if_pos c3] at h
    have e := Option.some.inj h; subst e; exact PlainStep.same rfl rfl rfl
  rw [if_neg c3] at h
  by_cases c4 : w &&& 0x00FF = 0x0018
  · rw [if_pos c4] at h
    have e := Option.some.inj h; subst e; exact PlainStep.same rfl rfl rfl
  rw [if_neg c4] at h
  by_cases c5 : w &&& 0x00FF = 0x001E
  · rw [if_pos c5] at h
    have e := Option.some.inj h; subst e; exact PlainStep.same rfl rfl rfl
  rw [if_neg c5] at h
  by_cases c6 : w &&& 0x00FF = 0x0029
  · rw [if_pos c6] at h
    have e := Option.some.inj h; subst e; exact PlainStep.same rfl rfl rfl
  rw [if_neg c6] at h
  by_cases c7 : w &&& 0x00FF = 0x0033
  · rw [if_pos c7] at h
    split at h
    · split at h
      · split at h
        · have e := Option.some.inj h; subst e; exact PlainStep.same rfl rfl rfl
        · exact absurd h (by simp)
      · exact absurd h (by simp)
    · exact absurd h (by simp)
  rw [if_neg c7] at h
  by_cases c8 : w &&& 0x00FF = 0x0055
  · rw [if_pos c8] at h
    have e := storeRegs_fields _ _ _ _ h
    exact PlainStep.same e.1 e.2.1 e.2.2
  rw [if_neg c8] at h
  by_cases c9 : w &&& 0x00FF = 0x0065
  · rw [if_pos c9] at h
    have e := loadRegs_fields _ _ _ _ h
    exact PlainStep.same e.1 e.2.1 e.2.2
  rw [if_neg c9] at h
  have e := Option.some.inj h; subst e; exact PlainStep.same rfl rfl rfl

theorem exec0_effect (u t : VM) (w : Nat) (c0 : w &&& 0xF000 = 0x0000)
    (h : exec0 u w = some t) : Effect u w t := by
  unfold exec0 at h
  simp only at h
  by_cases c1 : w = 0x00E0
  · rw [if_pos c1] at h
    have e := Option.some.inj h; subst e
    exact Or.inr (Or.inl ⟨c1, rfl, rfl, rfl⟩)
  rw [if_neg c1] at h
  by_cases c2 : w = 0x00EE
  · rw [if_pos c2] at h
    split at h
    · rename_i hlt
      have e := Option.some.inj h; subst e
      exact Or.inr (Or.inr (Or.inr (Or.inl ⟨c2, rfl, hlt⟩)))
    · exact absurd h (by simp)
  rw [if_neg c2] at h
  have e := Option.some.inj h; subst e
  exact Or.inl ⟨PlainStep.same rfl rfl rfl, by rw [c0]; decide, by rw [c0]; decide⟩

/-- Every completed `execute` has one of the effects listed in `Effect`. -/
theorem execute_effect (u t : VM) (w rnd : Nat) (h : execute u w rnd = some t) :
    Effect u w t := by
  unfold execute at h
  simp only at h
  by_cases c0 : w &&& 0xF000 = 0x0000
  · rw [if_pos c0] at h
    exact exec0_effect u t w c0 h
  rw [if_neg c0] at h
  by_cases c1 : w &&& 0xF000 = 0x1000
  · rw [if_pos c1] at h
    have e := Option.some.inj h; subst e
    exact Or.inr (Or.inr (Or.inr (Or.inr (Or.inl ⟨c1, rfl, rfl, rfl⟩))))
  rw [if_neg c1] at h
  by_cases c2 : w &&& 0xF000 = 0x2000
  · rw [if_pos c2] at h
    split at h
    · rename_i hlt
      have e := Option.some.inj h; subst e
      exact Or.inr (Or.inr (Or.inr (Or.inr (Or.inr (Or.inl ⟨c2, rfl, hlt, rfl, rfl⟩)))))
    · exact absurd h (by simp)
  rw [if_neg c2] at h
  by_cases c3 : w &&& 0xF000 = 0x3000
  · rw [if_pos c3] at h
    have e := Option.some.inj h; subst e
    split
    · exact Or.inl ⟨skip_plain u, c1, c2⟩
    · exact Or.inl ⟨PlainStep.same rfl rfl rfl, c1, c2⟩
  rw [if_neg c3] at h
  by_cases c4 : w &&& 0xF000 = 0x4000
  · rw [if_pos c4] at h
    have e := Option.some.inj h; subst e
    split
    · exact Or.inl ⟨skip_plain u, c1, c2⟩
    · exact Or.inl ⟨PlainStep.same rfl rfl rfl, c1, c2⟩
  rw [if_neg c4] at h
  by_cases c5 : w &&& 0xF000 = 0x5000
  · rw [if_pos c5] at h
    have e := Option.some.inj h; subst e
    split
    · exact Or.inl ⟨skip_plain u, c1, c2⟩
    · exact Or.inl ⟨PlainStep.same rfl rfl rfl, c1, c2⟩
  rw [if_neg c5] at h
  by_cases c6 : w &&& 0xF000 = 0x6000
  · rw [if_pos c6] at h
    have e := Option.some.inj h; subst e
    exact Or.inl ⟨PlainStep.same rfl rfl rfl, c1, c2⟩
  rw [if_neg c6] at h
  by_cases c7 : w &&& 0xF000 = 0x7000
  · rw [if_pos c7] at h
    have e := Option.some.inj h; subst e
    exact Or.inl ⟨PlainStep.same rfl rfl rfl, c1, c2⟩
  rw [if_neg c7] at h
  by_cases c8 : w &&& 0xF000 = 0x8000
  · rw [if_pos c8] at h
    have e := Option.some.inj h; subst e
    exact Or.inl ⟨exec8_plain u w _ _, c1, c2⟩
  rw [if_neg c8] at h
  by_cases cA : w &&& 0xF000 = 0xA000
  · rw [if_pos cA] at h
    have e := Option.some.inj h; subst e
    exact Or.inl ⟨PlainStep.same rfl rfl rfl, c1, c2⟩
  rw [if_neg cA] at h
  by_cases cB : w &&& 0xF000 = 0xB000
  · rw [if_pos cB] at h
    have e := Option.some.inj h; subst e
    exact Or.inr (Or.inr (Or.inr (Or.inr (Or.inr (Or.inr ⟨cB, rfl, rfl⟩)))))
  rw [if_neg cB] at h
  by_cases cC : w &&& 0xF000 = 0xC000
  · rw [if_pos cC] at h
    have e := Option.some.inj h; subst e
    exact Or.inl ⟨PlainStep.same rfl rfl rfl, c1, c2⟩
  rw [if_neg cC] at h
  by_cases cD : w &&& 0xF000 = 0xD000
  · rw [if_pos cD] at h
    have e := execD_effect u t _ _ _ h
    exact Or.inr (Or.inr (Or.inl ⟨cD, e.1, e.2.1, e.2.2⟩))
  rw [if_neg cD] at h
  by_cases cE : w &&& 0xF000 = 0xE000
  · rw [if_pos cE] at h
    exact Or.inl ⟨execE_plain u t w _ h, c1, c2⟩
  rw [if_neg cE] at h
  by_cases cF : w &&& 0xF000 = 0xF000
  · rw [if_pos cF] at h
    exact Or.inl ⟨execF_plain u t w _ h, c1, c2⟩
  rw [if_neg cF] at h
  have e := Option.some.inj h; subst e
  exact Or.inl ⟨PlainStep.same rfl rfl rfl, c1, c2⟩

theorem fetch_fields (s s1 : VM) (w : Nat) (hf : fetch s = some (w, s1)) :
    s1.pc = (s.pc + 2) % 65536 ∧ s1.sp = s.sp ∧ s.pc < 4096 := by
  unfold fetch at hf
  simp only at hf
  split at hf
  · rename_i hlt
    split at hf
    · have e := (Prod.mk.inj (Option.some.inj hf)).2
      subst e
      exact ⟨rfl, rfl, hlt⟩
    · exact absurd hf (by simp)
  · exact absurd hf (by simp)

/-! ## State invariant and dirty flag -/

/-- C17, as stated, fails: on the machine loaded with `1201` the invariant holds (`pc = 0x200`,
`sp = 0`), the jump completes, and the resulting `pc` is the odd address `0x201`. -/
theorem C17_jump_to_odd_address :
    ∃ s t, LoadProgram NewVM [0x12, 0x01] = some s ∧
      s.pc % 2 = 0 ∧ s.pc < 4096 ∧ s.sp < 16 ∧
      fetchExecute s 0 = some t ∧ t.pc = 0x201 ∧ t.pc % 2 = 1 :=
  ⟨_, _, rfl, by decide, by decide, by decide, rfl, by decide, by decide⟩

/-- C17, amended. From a state with `pc` even, `pc < 4096` and `sp < 16`, after a completed
fetch and execute of the 16-bit word `w`: `sp < 16` again unless `w` is a call `2nnn` made at
`sp = 15`; `pc` is even again unless `w` is `00EE`, `Bnnn`, or a jump or call with odd `nnn`;
and `pc < 4096` again unless `w` is `00EE` or `Bnnn`, or `w` is neither jump nor call and
`pc + 4 >= 4096` held before. -/
theorem C17_pc_sp_after_cycle (s s1 t : VM) (w rnd : Nat)
    (hpar : s.pc % 2 = 0) (hpc : s.pc < 4096) (hsp : s.sp < 16) (hw : w < 65536)
    (hf : fetch s = some (w, s1)) (he : execute s1 w rnd = some t) :
    (¬ (w / 0x1000 = 2 ∧ s.sp = 15) → t.sp < 16) ∧
    (w ≠ 0x00EE → w / 0x1000 ≠ 0xB → (w / 0x1000 = 1 ∨ w / 0x1000 = 2 → w % 2 = 0) →
      t.pc % 2 = 0) ∧
    (w ≠ 0x00EE → w / 0x1000 ≠ 0xB → (s.pc + 4 < 4096 ∨ w / 0x1000 = 1 ∨ w / 0x1000 = 2) →
      t.pc < 4096) := by
  obtain ⟨f1, f2, _⟩ := fetch_fields s s1 w hf
  have hE := execute_effect s1 t w rnd he
  unfold Effect PlainStep at hE
  rw [and_F000, and_0FFF, f1, f2] at hE
  rcases hE with ⟨⟨_, e2, e3⟩, n1, n2⟩ | ⟨_, _, e2, e3⟩ | ⟨_, _, e2, e3⟩ | ⟨e1, _, e3⟩ |
    ⟨e1, _, e2, e3⟩ | ⟨e1, _, e2, e3, e4⟩ | ⟨e1, _, e2⟩
  · refine ⟨fun _ => by omega, fun _ _ _ => by omega, fun _ _ h => ?_⟩
    have h1 : w / 4096 ≠ 1 := by omega
    have h2 : w / 4096 ≠ 2 := by omega
    omega
  · exact ⟨fun _ => by omega, fun _ _ _ => by omega, fun _ _ h => by omega⟩
  · refine ⟨fun _ => by omega, fun _ _ _ => by omega, fun _ _ h => ?_⟩
    have h1 : w / 4096 ≠ 1 := by omega
    have h2 : w / 4096 ≠ 2 := by omega
    omega
  · exact ⟨fun _ => e3, fun h => absurd e1 h, fun h => absurd e1 h⟩
  · exact ⟨fun _ => by omega, fun _ _ h => by omega, fun _ _ _ => by omega⟩
  · exact ⟨fun h => by omega, fun _ _ h => by omega, fun _ _ _ => by omega⟩
  · exact ⟨fun _ => by omega, fun _ h => absurd (by omega) h, fun _ h => absurd (by omega) h⟩

/-- C17, amended, on the machine loaded with `6001` at `0x200`. -/
theorem C17_pc_sp_after_cycle_witness :
    (¬ (0x6001 / 0x1000 = 2 ∧ (loaded [0x60, 0x01]).sp = 15) →
      ((fetchExecute (loaded [0x60, 0x01]) 0).getD zeroVM).sp < 16) ∧
    (0x6001 ≠ 0x00EE → 0x6001 / 0x1000 ≠ 0xB →
      (0x6001 / 0x1000 = 1 ∨ 0x6001 / 0x1000 = 2 → 0x6001 % 2 = 0) →
      ((fetchExecute (loaded [0x60, 0x01]) 0).getD zeroVM).pc % 2 = 0) ∧
    (0x6001 ≠ 0x00EE → 0x6001 / 0x1000 ≠ 0xB →
      ((loaded [0x60, 0x01]).pc + 4 < 4096 ∨ 0x6001 / 0x1000 = 1 ∨ 0x6001 / 0x1000 = 2) →
      ((fetchExecute (loaded [0x60, 0x01]) 0).getD zeroVM).pc < 4096) :=
  C17_pc_sp_after_cycle (loaded [0x60, 0x01])
    ((fetch (loaded [0x60, 0x01])).getD (0, zeroVM)).2
    ((fetchExecute (loaded [0x60, 0x01]) 0).getD zeroVM) 0x6001 0
    (by decide) (by decide) (by decide) (by decide) rfl rfl

/-- C18. Whenever `execute` completes on a 16-bit word `w` and some display pixel differs
afterwards, `w` is `00E0` or of the form `Dxyn`, and the dirty flag is set afterwards. -/
theorem C18_display_change_sets_dirty (s t : VM) (w rnd : Nat) (hw : w < 65536)
    (he : execute s w rnd = some t)
    (hd : ∃ px py, t.display px py ≠ s.display px py) :
    (w = 0x00E0 ∨ w / 0x1000 = 0xD) ∧ t.displayUpdated = true := by
  obtain ⟨px, py, hne⟩ := hd
  have hE := execute_effect s t w rnd he
  unfold Effect PlainStep at hE
  rw [and_F000] at hE
  rcases hE with ⟨⟨e, _⟩, _⟩ | ⟨e1, e2, _⟩ | ⟨e1, e2, _⟩ | ⟨_, e, _⟩ | ⟨_, e, _⟩ | ⟨_, e, _⟩ |
    ⟨_, e, _⟩
  · exact absurd (by rw [e]) hne
  · exact ⟨Or.inl e1, e2⟩
  · exact ⟨Or.inr (by omega), e2⟩
  · exact absurd (by rw [e]) hne
  · exact absurd (by rw [e]) hne
  · exact absurd (by rw [e]) hne
  · exact absurd (by rw [e]) hne

/-- C18 on the example state with `D012`, which turns pixel `(63, 31)` off. -/
theorem C18_display_change_sets_dirty_witness :
    (0xD012 = 0x00E0 ∨ 0xD012 / 0x1000 = 0xD) ∧
      ((execute drawExample 0xD012 0).getD zeroVM).displayUpdated = true :=
  C18_display_change_sets_dirty drawExample ((execute drawExample 0xD012 0).getD zeroVM)
    0xD012 0 (by decide) rfl ⟨63, 31, by decide⟩

end Chip8
